import Mathlib

/-!
Verification development for the HiViM-web heterogeneous video knowledge graph
(src/classes/hetero_graph.py, src/classes/conversation.py, src/classes/edge_class.py,
src/classes/node_class.py).

The Python classes are shallowly embedded as Lean structures over association
lists (Python dicts preserve insertion order, which the association lists mirror).
Embedding vectors come from an external service, so they are modelled by an
abstract type E together with two oracles:
  getEmb : String -> Option E       (none models a raised exception)
  cosSim : E -> E -> Option Rat     (none models a raised exception)
Every code path of the source that catches an exception around an embedding or
cosine call is translated by matching on the corresponding Option.
-/

namespace HVM

/-! ## Association lists modelling Python dicts (insertion order preserved) -/

/-- Lookup in an association list (Python: d.get(k) / d[k]). -/
def aget {κ ν : Type} [DecidableEq κ] : List (κ × ν) → κ → Option ν
  | [], _ => none
  | (k', v) :: rest, k => if k' = k then some v else aget rest k

/-- Lookup with default (Python: d.get(k, dflt)). -/
def agetD {κ ν : Type} [DecidableEq κ] (l : List (κ × ν)) (k : κ) (dflt : ν) : ν :=
  (aget l k).getD dflt

/-- Python dict assignment d[k] = v: replace in place if the key exists, else append. -/
def aset {κ ν : Type} [DecidableEq κ] : List (κ × ν) → κ → ν → List (κ × ν)
  | [], k, v => [(k, v)]
  | (k', v') :: rest, k, v =>
    if k' = k then (k, v) :: rest else (k', v') :: aset rest k v

/-- Python dict deletion (del d[k] / d.pop(k)). -/
def adel {κ ν : Type} [DecidableEq κ] (l : List (κ × ν)) (k : κ) : List (κ × ν) :=
  l.filter (fun p => decide (p.1 ≠ k))

/-- Python defaultdict(list) append: d[k].append(v). -/
def aappend {κ : Type} [DecidableEq κ] (l : List (κ × List Nat)) (k : κ) (v : Nat) :
    List (κ × List Nat) :=
  aset l k (agetD l k [] ++ [v])

/-! ## String helpers translated from the Python string operations -/

/-- Python s.startswith(p). -/
def strStartsWith (s p : String) : Bool := p.toList.isPrefixOf s.toList

/-- Python s.endswith(p). -/
def strEndsWith (s p : String) : Bool := p.toList.isSuffixOf s.toList

/-- The angle-bracket test used throughout hetero_graph.py:
    s.startswith("<") and s.endswith(">"). -/
def isBracketed (s : String) : Bool := strStartsWith s "<" && strEndsWith s ">"

/-- Wrap a name in angle brackets (Python: f-string with angle brackets). -/
def angleWrap (s : String) : String := "<" ++ s ++ ">"

/-- Python s.strip("<>"): remove all leading and trailing angle-bracket characters. -/
def stripAngles (s : String) : String :=
  let cs := s.toList.dropWhile (fun c => c == '<' || c == '>')
  ⟨(cs.reverse.dropWhile (fun c => c == '<' || c == '>')).reverse⟩

/-- Python s[1:-1], used to strip exactly one bracket from each side of a speaker name. -/
def dropFirstLast (s : String) : String := ⟨(s.toList.drop 1).dropLast⟩

/-- Python s.strip(): remove leading and trailing whitespace. -/
def strTrim (s : String) : String :=
  ⟨((s.toList.dropWhile Char.isWhitespace).reverse.dropWhile
      Char.isWhitespace).reverse⟩

/-- Python s.lower(). -/
def strToLower (s : String) : String := ⟨s.toList.map Char.toLower⟩

/-- Python s.split() with no separator: whitespace-delimited words, empties
    dropped. -/
def splitWSAux : List Char → List Char → List String
  | [], acc => if acc.isEmpty then [] else [⟨acc.reverse⟩]
  | c :: cs, acc =>
    if c.isWhitespace then
      if acc.isEmpty then splitWSAux cs [] else ⟨acc.reverse⟩ :: splitWSAux cs []
    else splitWSAux cs (c :: acc)

/-- The words of a string (Python s.split()). -/
def splitWS (s : String) : List String := splitWSAux s.toList []

/-- The regex check re.match(r'^<character_\d+>$', s) from rename_character:
    the string is literally "<character_" followed by one or more digits and ">". -/
def isGenericCharacterName (s : String) : Bool :=
  strStartsWith s "<character_" && strEndsWith s ">" &&
    (let mid := (s.toList.drop 11).dropLast
     !mid.isEmpty && mid.all Char.isDigit)

/-- The normalization applied to character names on entry to several methods:
    if not name.startswith("<") or not name.endswith(">"): name = wrapped. -/
def normalizeName (s : String) : String :=
  if !(strStartsWith s "<") || !(strEndsWith s ">") then angleWrap s else s

/-! ## Data model (node_class.py, edge_class.py, conversation.py, hetero_graph.py) -/

/-- CharacterNode: name plus the embedding assigned by node_embedding_insertion
    (faces are irrelevant to the verified operations and omitted). -/
structure CharacterNode (E : Type) where
  name : String
  embedding : Option E := none
deriving DecidableEq

/-- ObjectNode: name, optional owner and attribute, optional embedding. -/
structure ObjectNode (E : Type) where
  name : String
  owner : Option String := none
  attr : Option String := none
  embedding : Option E := none
deriving DecidableEq

/-- Edge from edge_class.py. The integer id is assigned from a counter at
    construction time; the counter is threaded explicitly by the callers. -/
structure Edge (E : Type) where
  id : Nat
  clip_id : Nat
  source : String
  target : Option String
  content : String
  scene : Option String
  confidence : Option Rat := none
  embedding : Option E := none
  scene_embedding : Option E := none
deriving DecidableEq

/-- A stored conversation message [speaker, content, clip_id, embedding]. -/
structure Msg (E : Type) where
  speaker : String
  content : String
  clip : Option Nat
  embedding : Option E
deriving DecidableEq

/-- Conversation from conversation.py. The speakers set is modelled as a
    duplicate-free list (only membership and insertion are ever used). -/
structure Conversation (E : Type) where
  id : Nat
  clips : List Nat
  messages : List (Msg E)
  summary : String
  speakers : List String
deriving DecidableEq

/-- HeteroGraph state (hetero_graph.py __init__). The adjacency lists are
    defaultdict(list); the incoming one admits the sentinel key none for edges
    with a null target. -/
structure HeteroGraph (E : Type) where
  characters : List (String × CharacterNode E)
  objects : List (String × ObjectNode E)
  conversations : List (Nat × Conversation E)
  edges : List (Edge E)
  current_conversation_id : Option Nat
  adjacency_list_out : List (String × List Nat)
  adjacency_list_in : List (Option String × List Nat)
deriving DecidableEq

/-- The freshly initialised graph: it contains only the robot character. -/
def initGraph (E : Type) : HeteroGraph E :=
  { characters := [("<robot>", { name := "<robot>" })]
    objects := []
    conversations := []
    edges := []
    current_conversation_id := none
    adjacency_list_out := []
    adjacency_list_in := [] }

variable {E : Type}

/-! ## Node API -/

/-- add_character: normalize the name to bracketed form; if present return it,
    else create and store a new CharacterNode. -/
def add_character (g : HeteroGraph E) (name : String) : String × HeteroGraph E :=
  let name := normalizeName name
  if (aget g.characters name).isSome then (name, g)
  else (name, { g with characters := aset g.characters name { name := name } })

/-- The node-existence test performed by add_edge: bracketed names are looked up
    in the character table, all other names in the object table. -/
def nodeExistsB (g : HeteroGraph E) (s : String) : Bool :=
  if isBracketed s then (aget g.characters s).isSome else (aget g.objects s).isSome

/-- Target existence: None is allowed as a target without any node. -/
def targetOkB (g : HeteroGraph E) : Option String → Bool
  | none => true
  | some t => nodeExistsB g t

/-- parse_node_string on a non-null input: strip whitespace, classify by brackets. -/
def parse_node_string (s : String) : Bool × String :=
  let t := strTrim s
  (isBracketed t, t)

/-- get_or_create_object_node: uniqueness is determined by name only. -/
def get_or_create_object_node (g : HeteroGraph E) (name : String) :
    String × HeteroGraph E :=
  if (aget g.objects name).isSome then (name, g)
  else (name, { g with objects := aset g.objects name { name := name } })

/-- The edge rewriting step of rename_character: every edge whose id occurs in
    the collected adjacency ids has endpoints equal to the old name replaced. -/
def renameRewriteEdge (old new : String) (ids : List Nat) (e : Edge E) : Edge E :=
  if e.id ∈ ids then
    { e with
      source := if e.source = old then new else e.source
      target := if e.target = some old then some new else e.target }
  else e

/-- The edge id set collected by rename_character: the union of the outgoing
    and incoming adjacency entries of the old name. -/
def renameIds (g : HeteroGraph E) (old : String) : List Nat :=
  agetD g.adjacency_list_out old [] ++ agetD g.adjacency_list_in (some old) []

/-- The successful branch of rename_character: move the character table entry,
    rewrite the endpoints of every edge listed in the adjacency of the old
    name, and move both adjacency lists to the new key. -/
def rename_apply (g : HeteroGraph E) (old newStored : String) : HeteroGraph E :=
  let ch := ((aget g.characters old).getD { name := old })
  let ch' := { ch with name := newStored }
  let outIds := agetD g.adjacency_list_out old []
  let inIds := agetD g.adjacency_list_in (some old) []
  let edges' := g.edges.map (renameRewriteEdge old newStored (renameIds g old))
  let adjOut :=
    if (aget g.adjacency_list_out old).isSome then
      aset (adel g.adjacency_list_out old) newStored outIds
    else g.adjacency_list_out
  let adjIn :=
    if (aget g.adjacency_list_in (some old)).isSome then
      aset (adel g.adjacency_list_in (some old)) (some newStored) inIds
    else g.adjacency_list_in
  { g with
    characters := aset (adel g.characters old) newStored ch'
    edges := edges'
    adjacency_list_out := adjOut
    adjacency_list_in := adjIn }

/-- rename_character from hetero_graph.py. Returns (success, new graph).
    Failure paths (old absent, old not generic, collision on new) leave the
    graph untouched. -/
def rename_character (g : HeteroGraph E) (old_name new_name : String) :
    Bool × HeteroGraph E :=
  let old := normalizeName old_name
  let newStored := angleWrap (stripAngles new_name)
  if (aget g.characters old).isNone then (false, g)
  else if !(isGenericCharacterName old) then (false, g)
  else if (aget g.characters newStored).isSome ∧ newStored ≠ old then (false, g)
  else (true, rename_apply g old newStored)

/-! ## Edge API -/

/-- add_edge: validate both endpoints, then insert into the edge table and
    append the id to both adjacency lists (sentinel key none for null target).
    An error models the raised ValueError; the graph is untouched in that case. -/
def add_edge (g : HeteroGraph E) (e : Edge E) :
    Except String (Nat × HeteroGraph E) :=
  if ¬ (nodeExistsB g e.source = true) then
    .error ("Source node '" ++ e.source ++ "' not found in graph")
  else if ¬ (targetOkB g e.target = true) then
    .error ("Target node '" ++ (e.target.getD "None") ++ "' not found in graph")
  else
    .ok (e.id,
      { g with
        edges := g.edges ++ [e]
        adjacency_list_out := aappend g.adjacency_list_out e.source e.id
        adjacency_list_in := aappend g.adjacency_list_in e.target e.id })

/-- The per-edge test of find_existing_high_level_edge: matching clip id, null
    scene, matching content, and exactly matching endpoints (attribute edges
    compare a null target, relationship edges the exact target). -/
def hl_edge_matches (source content : String) (target : Option String)
    (clip : Nat) (e : Edge E) : Bool :=
  if e.clip_id ≠ clip ∨ e.scene ≠ none then false
  else if e.content ≠ content then false
  else match target with
    | none => decide (e.source = source ∧ e.target = none)
    | some t => decide (e.source = source ∧ e.target = some t)

/-- find_existing_high_level_edge: first stored edge with the given clip id,
    null scene and exactly matching (source, content, target). -/
def find_existing_high_level_edge (g : HeteroGraph E) (source content : String)
    (target : Option String) (clip : Nat) : Option (Edge E) :=
  g.edges.find? (hl_edge_matches source content target clip)

/-- add_high_level_edge: non-high-level edges go through add_edge; otherwise a
    duplicate (source, content, target) triple updates the stored confidence
    only when the new one is strictly higher, and is skipped (sentinel none)
    otherwise. -/
def add_high_level_edge (g : HeteroGraph E) (e : Edge E) :
    Except String (Option Nat × HeteroGraph E) :=
  if e.clip_id ≠ 0 then (add_edge g e).map (fun p => (some p.1, p.2))
  else
    match find_existing_high_level_edge g e.source e.content e.target e.clip_id with
    | some ex =>
      if e.confidence.isSome = true ∧
          (ex.confidence = none ∨ ex.confidence.getD 0 < e.confidence.getD 0) then
        .ok (some ex.id,
          { g with edges := g.edges.map (fun e2 =>
              if e2.id = ex.id then { e2 with confidence := e.confidence } else e2) })
      else .ok (none, g)
    | none => (add_edge g e).map (fun p => (some p.1, p.2))

/-! ## Appearance-based character merging and triple ingestion -/

/-- The similarity threshold of match_and_merge_character (default 0.85). -/
def similarityThreshold : Rat := mkRat 85 100

/-- match_and_merge_character: compare the appearance embedding of a missing
    character against every existing generic character with an appearance entry;
    on a best match at or above the threshold, rename the generic character to
    the new name and delete the matched appearance entry. Exceptions from the
    embedding service or the cosine computation skip the affected candidate
    (or abort the whole match) exactly as the try/except blocks do.
    This definition is the candidate loop: the best similarity and its
    character, over all generic (non-robot) characters with an appearance. -/
def bestAppearanceMatch (getEmb : String → Option E)
    (cosSim : E → E → Option Rat) (g : HeteroGraph E)
    (app : List (String × String)) (newEmb : E) : Option String × Rat :=
  g.characters.foldl
    (fun (acc : Option String × Rat) p =>
      if ¬ (strStartsWith p.1 "<character_" = true) ∨ p.1 = "<robot>" then acc
      else
        match aget app p.1 with
        | none => acc
        | some existingApp =>
          match getEmb existingApp with
          | none => acc
          | some existingEmb =>
            match cosSim newEmb existingEmb with
            | none => acc
            | some sim =>
              if acc.2 < sim ∧ similarityThreshold ≤ sim then (some p.1, sim)
              else acc)
    (none, 0)

/-- match_and_merge_character: find the best appearance match at or above the
    threshold; on success rename the matched generic character to the new name
    and delete the matched appearance entry, else report no match. -/
def match_and_merge_character (getEmb : String → Option E)
    (cosSim : E → E → Option Rat) (g : HeteroGraph E)
    (app : List (String × String)) (char_name : String) :
    Option String × HeteroGraph E × List (String × String) :=
  if app.isEmpty ∨ (aget app char_name).isNone then (none, g, app)
  else
    match (aget app char_name).bind getEmb with
    | none => (none, g, app)
    | some newEmb =>
      match (bestAppearanceMatch getEmb cosSim g app newEmb).1 with
      | none => (none, g, app)
      | some bestMatch =>
        if (rename_character g (stripAngles bestMatch) (stripAngles char_name)).1 then
          (some char_name,
           (rename_character g (stripAngles bestMatch) (stripAngles char_name)).2,
           adel app bestMatch)
        else (none, g, app)

/-- Resolution of a character endpoint inside insert_triples: reuse an existing
    character, else try the appearance merge, else create the character. -/
def resolveCharacterNode (getEmb : String → Option E) (cosSim : E → E → Option Rat)
    (g : HeteroGraph E) (app : List (String × String)) (name : String) :
    String × HeteroGraph E × List (String × String) :=
  if (aget g.characters name).isSome then (name, g, app)
  else
    let m := match_and_merge_character getEmb cosSim g app name
    match m.1 with
    | some _ => (name, m.2.1, m.2.2)
    | none => (name, (add_character m.2.1 name).2, m.2.2)

/-- Resolution of any endpoint string: characters by bracket, objects by name. -/
def resolveNode (getEmb : String → Option E) (cosSim : E → E → Option Rat)
    (g : HeteroGraph E) (app : List (String × String)) (raw : String) :
    String × HeteroGraph E × List (String × String) :=
  let p := parse_node_string raw
  if p.1 = true then resolveCharacterNode getEmb cosSim g app p.2
  else
    let o := get_or_create_object_node g p.2
    (o.1, o.2, app)

/-- An input triple [source, edge_content, target]; null components are none. -/
structure Triple where
  source : Option String
  content : Option String
  target : Option String
deriving DecidableEq

/-- The deduplication key (source_name, target_name, edge_content) of a triple. -/
abbrev TripleKey := String × Option String × String

/-- The internal loop state of insert_triples: the graph, the (mutated)
    appearance map, the seen-edge-key set, and the edge id counter. -/
abbrev TState (E : Type) := HeteroGraph E × List (String × String) × List TripleKey × Nat

/-- One iteration of the insert_triples loop. A none result of getEmb on the
    scene models the uncaught exception from get_embedding: it aborts the batch
    carrying the partial state. A failing add_edge is caught and skipped. -/
def insertTriplesStep (getEmb : String → Option E) (cosSim : E → E → Option Rat)
    (clip : Nat) (scene : String) (st : TState E) (t : Triple) :
    Except (TState E) (TState E) :=
  match t.source with
  | none => .ok st
  | some src0 =>
    match t.content with
    | none => .ok st
    | some c =>
      if strTrim c = "" then .ok st
      else
        let (g, app, seen, ctr) := st
        let (srcName, g1, app1) := resolveNode getEmb cosSim g app src0
        let tgtRes : Option String × HeteroGraph E × List (String × String) :=
          match t.target with
          | none => (none, g1, app1)
          | some ts =>
            if strToLower ts = "null" then (none, g1, app1)
            else
              let r := resolveNode getEmb cosSim g1 app1 ts
              (some r.1, r.2.1, r.2.2)
        let (tgtName, g2, app2) := tgtRes
        let key : TripleKey := (srcName, tgtName, c)
        if key ∈ seen then .ok (g2, app2, seen, ctr)
        else
          let seen' := key :: seen
          match getEmb scene with
          | none => .error (g2, app2, seen', ctr)
          | some semb =>
            let e : Edge E :=
              { id := ctr + 1, clip_id := clip, source := srcName, target := tgtName
                content := c, scene := some scene, scene_embedding := some semb }
            match add_edge g2 e with
            | .error _ => .ok (g2, app2, seen', ctr + 1)
            | .ok r => .ok (r.2, app2, seen', ctr + 1)

/-- insert_triples: fold the step over the batch; both the normal and the
    aborted outcome carry the resulting graph and edge id counter. -/
def insert_triples (getEmb : String → Option E) (cosSim : E → E → Option Rat)
    (g : HeteroGraph E) (triples : List Triple) (clip : Nat) (scene : String)
    (app : List (String × String)) (ctr : Nat) :
    Except (HeteroGraph E × Nat) (HeteroGraph E × Nat) :=
  if triples.isEmpty then .ok (g, ctr)
  else
    match triples.foldlM (insertTriplesStep getEmb cosSim clip scene)
        ((g, app, ([] : List TripleKey), ctr) : TState E) with
    | .ok (g', _, _, ctr') => .ok (g', ctr')
    | .error (g', _, _, ctr') => .error (g', ctr')

/-! ## Conversation API (conversation.py and update_conversation) -/

/-- Membership of a (speaker, content) pair among the stored messages. -/
def pairStored (c : Conversation E) (p : String × String) : Bool :=
  c.messages.any (fun m => decide (m.speaker = p.1 ∧ m.content = p.2))

/-- Conversation.add_clip: append the clip id if it is not already present. -/
def conv_add_clip (c : Conversation E) (clip : Nat) : Conversation E :=
  if clip ∈ c.clips then c else { c with clips := c.clips ++ [clip] }

/-- Conversation.add_messages: deduplicate incoming [speaker, content] pairs
    against the stored messages and against earlier pairs of the same batch;
    each appended message stores clip_id and the embedding of the content only
    (none when get_embedding raises). Speakers of appended messages are added
    to the speakers set. -/
def conv_add_messages (getEmb : String → Option E) (c : Conversation E)
    (msgs : List (String × String)) (clip : Nat) : Conversation E :=
  if msgs.isEmpty then c
  else
    let existing0 := c.messages.map (fun m => (m.speaker, m.content))
    let res := msgs.foldl
      (fun (acc : List (String × String) × List (Msg E) × List String) m =>
        if m ∈ acc.1 then acc
        else
          (m :: acc.1,
           acc.2.1 ++ [{ speaker := m.1, content := m.2, clip := some clip
                         embedding := getEmb m.2 }],
           if m.1 ∈ acc.2.2 then acc.2.2 else acc.2.2 ++ [m.1]))
      (existing0, [], c.speakers)
    { c with messages := c.messages ++ res.2.1, speakers := res.2.2 }

/-- The display form used when embedding a message at conversation creation:
    the speaker with one bracket stripped from each side, a colon and a space,
    then the content. -/
def displayedMessage (speaker content : String) : String :=
  let plain :=
    if strStartsWith speaker "<" && strEndsWith speaker ">" then dropFirstLast speaker
    else speaker
  plain ++ ": " ++ content

/-- Duplicate-free list of speakers in first-appearance order (Python set). -/
def speakerSet (l : List String) : List String :=
  l.foldl (fun acc s => if s ∈ acc then acc else acc ++ [s]) []

/-- update_conversation from hetero_graph.py. Returns the conversation id, the
    new graph and the new conversation id counter. With previous_conversation
    set and a valid active conversation, messages are appended to it (embedding
    of the content only, computed in add_messages) and the clip is recorded;
    otherwise a fresh conversation is created whose message embeddings are
    computed on the displayed "speaker: content" form. -/
def update_conversation (getEmb : String → Option E) (g : HeteroGraph E)
    (clip : Nat) (msgs : List (String × String)) (previous_conversation : Bool)
    (convCtr : Nat) : Option Nat × HeteroGraph E × Nat :=
  if msgs.isEmpty then (none, g, convCtr)
  else
    let active : Option (Nat × Conversation E) :=
      match previous_conversation, g.current_conversation_id with
      | true, some cid =>
        match aget g.conversations cid with
        | some conv => some (cid, conv)
        | none => none
      | _, _ => none
    match active with
    | some (cid, conv) =>
      let conv' := conv_add_clip (conv_add_messages getEmb conv msgs clip) clip
      (some cid, { g with conversations := aset g.conversations cid conv' }, convCtr)
    | none =>
      let formatted : List (Msg E) := msgs.map (fun m =>
        { speaker := m.1, content := m.2, clip := some clip
          embedding := getEmb (displayedMessage m.1 m.2) })
      let cid := convCtr + 1
      let conv : Conversation E :=
        { id := cid, clips := [clip], messages := formatted, summary := ""
          speakers := speakerSet (formatted.map (fun m => m.speaker)) }
      (some cid,
       { g with conversations := aset g.conversations cid conv
                current_conversation_id := some cid },
       cid)

/-! ## Search primitives (similarity scoring) -/

/-- A weighted query triple [source, content, target, w_s, w_c, w_t]; missing
    weights default to 1 inside the scorer. -/
structure QueryTriple where
  source : Option String
  content : Option String
  target : Option String
  source_weight : Option Rat
  content_weight : Option Rat
  target_weight : Option Rat
deriving DecidableEq

/-- Python truthiness combined with the wildcard test: the value is present,
    non-empty and not the question mark. -/
def qTruthy (o : Option String) : Prop :=
  o ≠ none ∧ o ≠ some "" ∧ o ≠ some "?"

instance (o : Option String) : Decidable (qTruthy o) := by
  unfold qTruthy; infer_instance

/-- get_node_embedding: stored embedding of a character (bracketed) or object
    node, none when the node or its embedding is absent. -/
def get_node_embedding (g : HeteroGraph E) (node : Option String) : Option E :=
  match node with
  | none => none
  | some s0 =>
    let s := strTrim s0
    if isBracketed s then
      match aget g.characters s with
      | some ch => ch.embedding
      | none => none
    else
      match aget g.objects s with
      | some ob => ob.embedding
      | none => none

/-- calculate_node_similarity: 0 for null, question mark or empty inputs; exact
    string equality for two bracketed character names; cosine similarity when
    both embeddings are present (0 when the cosine computation raises), else 0. -/
def calculate_node_similarity (cosSim : E → E → Option Rat)
    (n1 n2 : Option String) (e1 e2 : Option E) : Rat :=
  if n1 = none ∨ n1 = some "?" ∨ n2 = none ∨ n2 = some "?" then 0
  else
    let s1 := strTrim (n1.getD "")
    let s2 := strTrim (n2.getD "")
    if s1 = "" ∨ s2 = "" then 0
    else if isBracketed s1 = true ∧ isBracketed s2 = true then
      if s1 = s2 then 1 else 0
    else
      match e1, e2 with
      | some a, some b =>
        match cosSim a b with
        | some v => v
        | none => 0
      | _, _ => 0

/-- The content component of compute_edge_similarity: cosine of the query
    content embedding against the stored edge content embedding, weighted; on a
    raised cosine the code falls back to exact string equality; a missing edge
    content embedding yields 0. -/
def content_similarity (cosSim : E → E → Option Rat) (e : Edge E)
    (qContent : Option String) (contentEmb : Option E) (wc : Rat) : Rat :=
  if qTruthy qContent ∧ e.content ≠ "" ∧ contentEmb.isSome = true then
    match e.embedding, contentEmb with
    | some ee, some ce =>
      match cosSim ce ee with
      | some v => v * wc
      | none => if e.content = qContent.getD "" then wc else 0
    | _, _ => 0
  else 0

/-- compute_edge_similarity: content component plus the better of the normal
    and the endpoint-swapped (reversed) weighted node similarities. -/
def compute_edge_similarity (cosSim : E → E → Option Rat) (g : HeteroGraph E)
    (edge : Option (Edge E)) (qt : QueryTriple)
    (qe : Option E × Option E × Option E) : Rat :=
  match edge with
  | none => 0
  | some e =>
    let ws := qt.source_weight.getD 1
    let wc := qt.content_weight.getD 1
    let wt := qt.target_weight.getD 1
    let (sourceEmb, contentEmb, targetEmb) := qe
    let contentSim := content_similarity cosSim e qt.content contentEmb wc
    let normalSrc :=
      if qTruthy qt.source then
        calculate_node_similarity cosSim qt.source (some e.source) sourceEmb
          (get_node_embedding g (some e.source)) * ws
      else 0
    let normalTgt :=
      if qTruthy qt.target ∧ e.target ≠ none then
        calculate_node_similarity cosSim qt.target e.target targetEmb
          (get_node_embedding g e.target) * wt
      else 0
    let revSrc :=
      if qTruthy qt.source ∧ e.target ≠ none then
        calculate_node_similarity cosSim qt.source e.target sourceEmb
          (get_node_embedding g e.target) * ws
      else 0
    let revTgt :=
      if qTruthy qt.target then
        calculate_node_similarity cosSim qt.target (some e.source) targetEmb
          (get_node_embedding g (some e.source)) * wt
      else 0
    contentSim + max (normalSrc + normalTgt) (revSrc + revTgt)

/-- The per-edge aggregation loop of search_high_level_edges: starting from 0,
    take the maximum with the similarity of every query triple in turn (the
    query embeddings are precomputed and travel with each triple). -/
def high_level_query_score (cosSim : E → E → Option Rat) (g : HeteroGraph E)
    (e : Edge E) (qts : List (QueryTriple × (Option E × Option E × Option E))) :
    Rat :=
  qts.foldl (fun score q =>
    max score (compute_edge_similarity cosSim g (some e) q.1 q.2)) 0

/-- The final high-level score: the aggregated similarity plus the confidence
    bonus confidence / 100 * 0.3 when the confidence is present and non-zero. -/
def high_level_final_score (cosSim : E → E → Option Rat) (g : HeteroGraph E)
    (e : Edge E) (qts : List (QueryTriple × (Option E × Option E × Option E))) :
    Rat :=
  let s := high_level_query_score cosSim g e qts
  if e.confidence ≠ none ∧ e.confidence ≠ some 0 then
    s + e.confidence.getD 0 / 100 * (3 / 10)
  else s

/-! ## Conversation search -/

/-- A search_conversations hit. -/
structure SearchHit where
  conversation_id : Nat
  message_index : Nat
  score : Rat
deriving DecidableEq

/-- Substring test (Python: p in s). -/
def isSubstring (p s : String) : Bool :=
  s.toList.tails.any (fun t => p.toList.isPrefixOf t)

/-- The keyword fallback of search_conversations: 0.5 when the lowered query,
    or any whitespace-separated word of it, occurs in the lowered formatted
    message, else 0. -/
def keyword_score (query formatted : String) : Rat :=
  let fl := strToLower formatted
  let ql := strToLower query
  if isSubstring ql fl
      || (splitWS ql).any (fun w => isSubstring w fl)
  then mkRat 1 2 else 0

/-- Score of one message against the query embedding: stored embedding when
    present, else embed the displayed form on the fly; any raised exception
    falls back to keyword matching on the raw speaker-prefixed form. -/
def message_score (getEmb : String → Option E) (cosSim : E → E → Option Rat)
    (query : String) (queryEmb : E) (m : Msg E) : Rat :=
  let fallback := keyword_score query (m.speaker ++ ": " ++ m.content)
  match m.embedding with
  | some me =>
    match cosSim queryEmb me with
    | some v => v
    | none => fallback
  | none =>
    match getEmb (displayedMessage m.speaker m.content) with
    | none => fallback
    | some me =>
      match cosSim queryEmb me with
      | some v => v
      | none => fallback

/-- Speaker-name normalization used by the speaker_strict filter. -/
def normalizeSpeaker (s : String) : String := normalizeName s

/-- The speaker filter: when a non-empty speaker_strict list is given, keep
    only conversations containing every normalized required speaker. -/
def speakersAdmit (strict : Option (List String)) (c : Conversation E) : Bool :=
  match strict with
  | none => true
  | some l =>
    if l.isEmpty then true
    else (l.map normalizeSpeaker).all (fun s => decide (s ∈ c.speakers))

/-- The unsorted hit list of search_conversations, in conversation and message
    order; empty-content messages are skipped and only positive scores kept. -/
def conversation_hits (getEmb : String → Option E) (cosSim : E → E → Option Rat)
    (g : HeteroGraph E) (query : String) (queryEmb : E)
    (strict : Option (List String)) : List SearchHit :=
  g.conversations.foldl (fun acc p =>
    if speakersAdmit strict p.2 then
      acc ++ (p.2.messages.enum.filterMap (fun im =>
        if im.2.content = "" then none
        else
          let s := message_score getEmb cosSim query queryEmb im.2
          if 0 < s then
            some { conversation_id := p.1, message_index := im.1, score := s }
          else none))
    else acc) []

/-- search_conversations: embed the query (a raised exception yields no
    results), collect the hits, sort them stably by score descending and
    return the first k. -/
def search_conversations (getEmb : String → Option E)
    (cosSim : E → E → Option Rat) (g : HeteroGraph E) (query : String) (k : Nat)
    (strict : Option (List String)) : List SearchHit :=
  if query = "" then []
  else
    match getEmb query with
    | none => []
    | some qe =>
      ((conversation_hits getEmb cosSim g query qe strict).insertionSort
        (fun a b => b.score ≤ a.score)).take k

/-! ## Context-window merging of conversation search results -/

/-- The half-open context interval of a hit index (Nat subtraction models
    max(0, i - w)). -/
def hit_ranges (w len : Nat) (idxs : List Nat) : List (Nat × Nat) :=
  idxs.map (fun i => (i - w, min len (i + w + 1)))

/-- Stable sort of the intervals by start index. -/
def sort_ranges (rs : List (Nat × Nat)) : List (Nat × Nat) :=
  rs.insertionSort (fun a b => a.1 ≤ b.1)

/-- The merge loop over start-sorted intervals: a new interval starting at or
    before the current merged end extends it, otherwise the merged interval is
    emitted and a new one begun. -/
def merge_ranges_aux : List (Nat × Nat) → Nat × Nat → List (Nat × Nat) →
    List (Nat × Nat)
  | [], cur, acc => acc ++ [cur]
  | (s, e) :: rest, (ms, me), acc =>
    if s ≤ me then merge_ranges_aux rest (ms, max me e) acc
    else merge_ranges_aux rest (s, e) (acc ++ [(ms, me)])

/-- merge_ranges over an already sorted interval list. -/
def merge_ranges : List (Nat × Nat) → List (Nat × Nat)
  | [] => []
  | r :: rest => merge_ranges_aux rest r []

/-- The set of message indices covered by a list of half-open intervals. -/
def covered_finset (rs : List (Nat × Nat)) : Finset Nat :=
  rs.foldl (fun acc r => acc ∪ Finset.Ico r.1 r.2) ∅

/-- The sorted duplicate-free index list rendered for one conversation: sort
    the context intervals, merge them, take the union of the covered indices
    as a set, and sort ascending. -/
def context_indices (len w : Nat) (idxs : List Nat) : List Nat :=
  (covered_finset (merge_ranges (sort_ranges (hit_ranges w len idxs)))).sort (· ≤ ·)

/-- Rendering of one context message: clip id in square brackets, the speaker
    with one bracket stripped from each side, a colon, the content. -/
def format_context_message (m : Msg E) : String :=
  let plain :=
    if strStartsWith m.speaker "<" && strEndsWith m.speaker ">" then
      dropFirstLast m.speaker
    else m.speaker
  match m.clip with
  | some c => "[" ++ toString c ++ "] " ++ plain ++ ": " ++ m.content
  | none => plain ++ ": " ++ m.content

/-- The block of one conversation: header line with the summary when one is
    present, then the rendered messages of the merged context windows. -/
def conversation_block (g : HeteroGraph E) (w cid : Nat) (idxs : List Nat) :
    Option String :=
  match aget g.conversations cid with
  | none => none
  | some conv =>
    if conv.messages.isEmpty then none
    else
      let sidx := context_indices conv.messages.length w idxs
      let lines := sidx.filterMap (fun i =>
        (conv.messages.get? i).map format_context_message)
      if lines.isEmpty then none
      else
        let header :=
          if conv.summary ≠ "" then
            "Conversation " ++ toString cid ++ ": " ++ conv.summary
          else "Conversation " ++ toString cid ++ ":"
        some (header ++ "\n" ++ String.intercalate "\n" lines)

/-- Grouping of the search results by conversation id in first-hit order. -/
def group_by_conversation (results : List SearchHit) : List (Nat × List Nat) :=
  results.foldl (fun acc r =>
    aset acc r.conversation_id (agetD acc r.conversation_id [] ++ [r.message_index]))
    []

/-- get_conversation_messages_with_context: group the hits, render each
    conversation block, and join the blocks with a blank line. -/
def get_conversation_messages_with_context (g : HeteroGraph E)
    (results : List SearchHit) (w : Nat) : String :=
  if results.isEmpty then ""
  else
    let blocks := (group_by_conversation results).filterMap
      (fun p => conversation_block g w p.1 p.2)
    String.intercalate "\n\n" blocks

/-! ## The edge-store invariant -/

/-- Well-formedness of one edge with respect to the graph: both endpoints
    resolve (null targets are allowed) and the edge id is recorded in the
    outgoing adjacency of the source and the incoming adjacency of the target
    (sentinel key none for a null target). -/
def edgeOk (g : HeteroGraph E) (e : Edge E) : Prop :=
  nodeExistsB g e.source = true ∧ targetOkB g e.target = true ∧
  e.id ∈ agetD g.adjacency_list_out e.source [] ∧
  e.id ∈ agetD g.adjacency_list_in e.target []

instance (g : HeteroGraph E) (e : Edge E) : Decidable (edgeOk g e) := by
  unfold edgeOk; infer_instance

/-- The referential-integrity invariant of the edge store. -/
def GraphInv (g : HeteroGraph E) : Prop := ∀ e ∈ g.edges, edgeOk g e

instance (g : HeteroGraph E) : Decidable (GraphInv g) := by
  unfold GraphInv; infer_instance

/-- The state produced by a successful add_edge. -/
def add_edge_result (g : HeteroGraph E) (e : Edge E) : HeteroGraph E :=
  { g with
    edges := g.edges ++ [e]
    adjacency_list_out := aappend g.adjacency_list_out e.source e.id
    adjacency_list_in := aappend g.adjacency_list_in e.target e.id }

/-- A predicate holding on an Except whichever side it is. -/
def exceptStateP {σ : Type} (P : σ → Prop) : Except σ σ → Prop
  | .ok s => P s
  | .error s => P s

/-- The stored confidences of all high-level edges matching a triple. -/
def matching_confs (g : HeteroGraph E) (source content : String)
    (target : Option String) : List (Option Rat) :=
  (g.edges.filter (hl_edge_matches source content target 0)).map
    (fun e => e.confidence)

/-- The repeated-assertion sequence of the claim: one add_high_level_edge call
    per confidence value, each with a freshly constructed edge (clip_id 0, null
    scene) carrying the same (source, content, target) triple; the edge id
    counter is threaded exactly as the global Edge counter is. -/
def assert_confidences (g : HeteroGraph E) (ctr : Nat) (source content : String)
    (target : Option String) (cs : List Rat) :
    Except String (HeteroGraph E × Nat) :=
  cs.foldlM (fun st c =>
    (add_high_level_edge st.1
      { id := st.2 + 1, clip_id := 0, source := source, target := target
        content := content, scene := none, confidence := some c }).map
      (fun r => (r.2, st.2 + 1))) (g, ctr)

/-! ## Pure batch semantics of insert_triples (claim C4) -/

/-- The resolved deduplication key of a triple as a pure function of the
    triple: none for a null source or a null or whitespace-only content; the
    source and target names are the parsed (trimmed) strings, and a null or
    literal "null" (case-insensitive) target resolves to none. -/
def triple_resolved_key (t : Triple) : Option TripleKey :=
  match t.source with
  | none => none
  | some src0 =>
    match t.content with
    | none => none
    | some c =>
      if strTrim c = "" then none
      else
        some (strTrim src0,
          (match t.target with
           | none => none
           | some ts => if strToLower ts = "null" then none else some (strTrim ts)),
          c)

/-- First occurrences of resolved keys, relative to an already-seen key set. -/
def batch_keys_from (seen : List TripleKey) : List Triple → List TripleKey
  | [] => []
  | t :: ts =>
    match triple_resolved_key t with
    | none => batch_keys_from seen ts
    | some k =>
      if k ∈ seen then batch_keys_from seen ts
      else k :: batch_keys_from (k :: seen) ts

/-- The resolved keys that produce edges in one insert_triples batch. -/
def spec_batch_keys (ts : List Triple) : List TripleKey := batch_keys_from [] ts

/-- The edge produced for one resolved key. -/
def keyEdge (clip : Nat) (scene : String) (se : Option E) (idv : Nat)
    (k : TripleKey) : Edge E :=
  { id := idv, clip_id := clip, source := k.1, target := k.2.1, content := k.2.2
    scene := some scene, scene_embedding := se }

/-- The edges produced for a key list, with consecutive ids from ctr + 1. -/
def keyEdges (clip : Nat) (scene : String) (se : Option E) :
    Nat → List TripleKey → List (Edge E)
  | _, [] => []
  | ctr, k :: ks =>
    keyEdge clip scene se (ctr + 1) k :: keyEdges clip scene se (ctr + 1) ks

/-- Removal of literal duplicate triples, keeping first occurrences. -/
def dedupFirstAux (seenT : List Triple) : List Triple → List Triple
  | [] => []
  | t :: ts =>
    if t ∈ seenT then dedupFirstAux seenT ts
    else t :: dedupFirstAux (t :: seenT) ts

/-- A triple list with its literal duplicates removed. -/
def dedupFirst (ts : List Triple) : List Triple := dedupFirstAux [] ts

/-! ## The new message pairs appended by add_messages (claim C7) -/

/-- The first occurrences of the (speaker, content) pairs of a batch that are
    not already stored: exactly the pairs appended by add_messages, in order. -/
def newPairsAux (stored : List (String × String)) :
    List (String × String) → List (String × String)
  | [] => []
  | p :: rest =>
    if p ∈ stored then newPairsAux stored rest
    else p :: newPairsAux (p :: stored) rest

/-- The new pairs of a batch relative to the messages already stored in a
    conversation. -/
def spec_new_pairs (c : Conversation E) (msgs : List (String × String)) :
    List (String × String) :=
  newPairsAux (c.messages.map (fun m => (m.speaker, m.content))) msgs

/-! ## The specified edge-vs-triple scoring formula (claim C5) -/

/-- The edge-vs-triple similarity exactly as the specification words it:
    content similarity plus the maximum of the normal and reversed weighted
    endpoint similarity sums, with no truthiness guards around the node
    terms. -/
def spec_triple_score (cosSim : E → E → Option Rat) (g : HeteroGraph E)
    (e : Edge E) (qt : QueryTriple) (qe : Option E × Option E × Option E) :
    Rat :=
  let ws := qt.source_weight.getD 1
  let wc := qt.content_weight.getD 1
  let wt := qt.target_weight.getD 1
  let (sourceEmb, contentEmb, targetEmb) := qe
  let nSrc := calculate_node_similarity cosSim qt.source (some e.source)
    sourceEmb (get_node_embedding g (some e.source)) * ws
  let nTgt := calculate_node_similarity cosSim qt.target e.target targetEmb
    (get_node_embedding g e.target) * wt
  let rSrc := calculate_node_similarity cosSim qt.source e.target sourceEmb
    (get_node_embedding g e.target) * ws
  let rTgt := calculate_node_similarity cosSim qt.target (some e.source)
    targetEmb (get_node_embedding g (some e.source)) * wt
  content_similarity cosSim e qt.content contentEmb wc +
    max (nSrc + nTgt) (rSrc + rTgt)

/-! ## Concrete data used by the witnesses and counterexamples -/

/-- A cosine oracle that always reports similarity -1. -/
def negCos : Unit → Unit → Option Rat := fun _ _ => some (-1)

/-- The C5 counterexample edge. -/
def eCx5 : Edge Unit :=
  { id := 1, clip_id := 0, source := "thing", target := none, content := "a"
    scene := none, embedding := some () }

/-- The C5 counterexample query triple: content only, all weights 1. -/
def qtCx5 : QueryTriple :=
  { source := none, content := some "a", target := none
    source_weight := some 1, content_weight := some 1, target_weight := some 1 }

/-- The C6 counterexample edge: its content embedding is unavailable. -/
def eCx6 : Edge Unit :=
  { id := 1, clip_id := 0, source := "<Alice>", target := none
    content := "kind", scene := none, embedding := none }

/-- An embedding oracle that always succeeds (the embedding values carry no
    information). -/
def cxGetEmb : String → Option Unit := fun _ => some ()

/-- A cosine oracle on which every pair of appearances is perfectly similar. -/
def cxCos : Unit → Unit → Option Rat := fun _ _ => some 1

/-- The C4 counterexample graph: the robot and one generic character. -/
def gCx : HeteroGraph Unit :=
  { initGraph Unit with
    characters :=
      [("<robot>", { name := "<robot>" }),
       ("<character_1>", { name := "<character_1>" })] }

/-- The C4 counterexample appearance map: descriptions for the generic
    character and for the new character of the triple. -/
def appCx : List (String × String) := [("<character_1>", "d1"), ("<A>", "d2")]

/-- The C4 counterexample triple: its source is the generic character that the
    appearance merge renames away while resolving the target. -/
def tCx : Triple :=
  { source := some "<character_1>", content := some "likes"
    target := some "<A>" }

/-- The C4 witness batch: a valid triple, its literal duplicate, and an
    invalid triple with a null source. -/
def tsW : List Triple :=
  [{ source := some "<Alice>", content := some "picks up", target := some "coffee" },
   { source := some "<Alice>", content := some "picks up", target := some "coffee" },
   { source := none, content := some "x", target := none }]

/-- A small concrete graph used by the witnesses: the robot, a generic
    character, a named character, one object, one low-level and one high-level
    edge, with consistent adjacency lists. -/
def gW : HeteroGraph Unit :=
  { characters :=
      [("<robot>", { name := "<robot>" }),
       ("<character_1>", { name := "<character_1>" }),
       ("<Alice>", { name := "<Alice>" })]
    objects := [("coffee", { name := "coffee" })]
    conversations := []
    edges :=
      [{ id := 1, clip_id := 1, source := "<character_1>",
         target := some "coffee", content := "holds", scene := some "kitchen" },
       { id := 2, clip_id := 0, source := "<Alice>", target := none,
         content := "kind", scene := none, confidence := some 60 }]
    current_conversation_id := none
    adjacency_list_out := [("<character_1>", [1]), ("<Alice>", [2])]
    adjacency_list_in := [(some "coffee", [1]), (none, [2])] }

/-- The graph of the concrete C1 scenario: the initial graph plus Alice. -/
def gA : HeteroGraph Unit := (add_character (initGraph Unit) "Alice").2

/-- The C7 conversation: empty, belonging to clip 4, active. -/
def conv7 : Conversation String :=
  { id := 1, clips := [4], messages := [], summary := "", speakers := [] }

/-- The C7 graph: one active conversation, string embeddings. -/
def g7 : HeteroGraph String :=
  { initGraph String with
    conversations := [(1, conv7)]
    current_conversation_id := some 1 }

/-- One stored message of the C9 conversation. -/
def msg9 (i : Nat) : Msg Unit :=
  { speaker := "<Anna>", content := "m" ++ toString i, clip := some 1
    embedding := none }

/-- The C9 conversation: ten messages and a summary. -/
def conv9 : Conversation Unit :=
  { id := 1, clips := [1]
    messages := [msg9 0, msg9 1, msg9 2, msg9 3, msg9 4, msg9 5, msg9 6,
      msg9 7, msg9 8, msg9 9]
    summary := "The chat.", speakers := ["<Anna>"] }

/-- The C9 graph holding that conversation. -/
def g9 : HeteroGraph Unit :=
  { initGraph Unit with conversations := [(1, conv9)] }

/-- The C9 search hits: message indices 2 and 4 of conversation 1. -/
def hits9 : List SearchHit :=
  [{ conversation_id := 1, message_index := 2, score := 1 },
   { conversation_id := 1, message_index := 4, score := 1 }]

/-- The expected C9 context block: summary header, then messages 0 to 6. -/
def block9 : String :=
  "Conversation 1: The chat.\n[1] Anna: m0\n[1] Anna: m1\n[1] Anna: m2\n" ++
    "[1] Anna: m3\n[1] Anna: m4\n[1] Anna: m5\n[1] Anna: m6"

/-- The C10 conversation: the generic character 1 spoke in it. -/
def conv10 : Conversation Unit :=
  { id := 7, clips := [1]
    messages := [{ speaker := "<character_1>", content := "hello"
                   clip := some 1, embedding := none }]
    summary := "", speakers := ["<character_1>"] }

/-- The C10 graph: the robot, the generic character 1 and its conversation. -/
def g10 : HeteroGraph Unit :=
  { characters := [("<robot>", { name := "<robot>" }),
      ("<character_1>", { name := "<character_1>" })]
    objects := []
    conversations := [(7, conv10)]
    edges := []
    current_conversation_id := none
    adjacency_list_out := []
    adjacency_list_in := [] }

/-! ## Association-list lemmas -/

theorem aget_aset_self {κ ν : Type} [DecidableEq κ] (l : List (κ × ν)) (k : κ)
    (v : ν) : aget (aset l k v) k = some v := by
  induction l with
  | nil => simp [aset, aget]
  | cons p rest ih =>
    by_cases h : p.1 = k
    · simp [aset, aget, h]
    · simpa [aset, aget, h] using ih

theorem aget_aset_ne {κ ν : Type} [DecidableEq κ] (l : List (κ × ν))
    (k k' : κ) (v : ν) (h : k' ≠ k) : aget (aset l k v) k' = aget l k' := by
  induction l with
  | nil => simp [aset, aget, Ne.symm h]
  | cons p rest ih =>
    by_cases hp : p.1 = k
    · subst hp
      simp [aset, aget, Ne.symm h]
    · by_cases hp' : p.1 = k'
      · simp [aset, aget, hp, hp', h]
      · simp [aset, aget, hp, hp', ih]

theorem aget_adel_self {κ ν : Type} [DecidableEq κ] (l : List (κ × ν)) (k : κ) :
    aget (adel l k) k = none := by
  induction l with
  | nil => simp [adel, aget]
  | cons p rest ih =>
    by_cases h : p.1 = k
    · simpa [adel, List.filter_cons, h] using ih
    · simpa [adel, List.filter_cons, aget, h] using ih

theorem aget_adel_ne {κ ν : Type} [DecidableEq κ] (l : List (κ × ν)) (k k' : κ)
    (h : k' ≠ k) : aget (adel l k) k' = aget l k' := by
  induction l with
  | nil => simp [adel, aget]
  | cons p rest ih =>
    by_cases hp : p.1 = k
    · subst hp
      simpa [adel, List.filter_cons, aget, Ne.symm h] using ih
    · by_cases hp' : p.1 = k'
      · simp [adel, List.filter_cons, aget, hp, hp', h]
      · simpa [adel, List.filter_cons, aget, hp, hp'] using ih

theorem agetD_aappend_self {κ : Type} [DecidableEq κ] (l : List (κ × List Nat))
    (k : κ) (v : Nat) : agetD (aappend l k v) k [] = agetD l k [] ++ [v] := by
  simp [aappend, agetD, aget_aset_self]

theorem agetD_aappend_ne {κ : Type} [DecidableEq κ] (l : List (κ × List Nat))
    (k k' : κ) (v : Nat) (h : k' ≠ k) : agetD (aappend l k v) k' [] = agetD l k' [] := by
  simp [aappend, agetD, aget_aset_ne _ _ _ _ h]

theorem aget_aset_isSome {κ ν : Type} [DecidableEq κ] (l : List (κ × ν))
    (k k' : κ) (v : ν) (h : (aget l k').isSome = true) :
    (aget (aset l k v) k').isSome = true := by
  by_cases hk : k' = k
  · subst hk; simp [aget_aset_self]
  · rwa [aget_aset_ne _ _ _ _ hk]

/-! ## String-form lemmas -/

theorem toList_angleWrap (s : String) :
    (angleWrap s).toList = '<' :: (s.toList ++ ['>']) := by
  simp [angleWrap]

theorem isBracketed_angleWrap (s : String) : isBracketed (angleWrap s) = true := by
  have h := toList_angleWrap s
  simp only [isBracketed, strStartsWith, strEndsWith, h, Bool.and_eq_true]
  constructor
  · simp [List.isPrefixOf]
  · rw [List.isSuffixOf_iff_suffix]
    exact ⟨'<' :: s.toList, by simp⟩

theorem isBracketed_of_generic (s : String)
    (h : isGenericCharacterName s = true) : isBracketed s = true := by
  simp only [isGenericCharacterName, Bool.and_eq_true] at h
  obtain ⟨⟨h1, h2⟩, _⟩ := h
  simp only [isBracketed, strStartsWith, strEndsWith, Bool.and_eq_true]
  refine ⟨?_, h2⟩
  simp only [strStartsWith] at h1
  rw [List.isPrefixOf_iff_prefix] at h1 ⊢
  exact List.IsPrefix.trans (by decide) h1

theorem agetD_mem_isSome {κ : Type} [DecidableEq κ] (l : List (κ × List Nat))
    (k : κ) (v : Nat) (h : v ∈ agetD l k []) : (aget l k).isSome = true := by
  unfold agetD at h
  cases hk : aget l k with
  | none => rw [hk] at h; simp at h
  | some w => simp [hk]

/-! ## Properties of rename_apply -/

section Rename

variable (g : HeteroGraph E) (old nw : String)

theorem rename_apply_objects : (rename_apply g old nw).objects = g.objects := rfl

theorem rename_apply_conversations :
    (rename_apply g old nw).conversations = g.conversations := rfl

theorem rename_apply_edges :
    (rename_apply g old nw).edges =
      g.edges.map (renameRewriteEdge old nw (renameIds g old)) := rfl

theorem rename_apply_chars_new :
    aget (rename_apply g old nw).characters nw =
      some { ((aget g.characters old).getD { name := old }) with name := nw } := by
  simp [rename_apply, aget_aset_self]

theorem rename_apply_chars_old (h : nw ≠ old) :
    aget (rename_apply g old nw).characters old = none := by
  simp only [rename_apply]
  rw [aget_aset_ne _ _ _ _ (Ne.symm h), aget_adel_self]

theorem rename_apply_chars_other (s : String) (h1 : s ≠ old) (h2 : s ≠ nw) :
    aget (rename_apply g old nw).characters s = aget g.characters s := by
  simp only [rename_apply]
  rw [aget_aset_ne _ _ _ _ h2, aget_adel_ne _ _ _ h1]

theorem rename_apply_adjOut_moved
    (h : (aget g.adjacency_list_out old).isSome = true) :
    agetD (rename_apply g old nw).adjacency_list_out nw [] =
      agetD g.adjacency_list_out old [] := by
  simp only [rename_apply, h, if_true, agetD, aget_aset_self, Option.getD_some]

theorem rename_apply_adjOut_other (s : String) (h1 : s ≠ old) (h2 : s ≠ nw) :
    aget (rename_apply g old nw).adjacency_list_out s =
      aget g.adjacency_list_out s := by
  simp only [rename_apply]
  split
  · rw [aget_aset_ne _ _ _ _ h2, aget_adel_ne _ _ _ h1]
  · rfl

theorem rename_apply_adjOut_old (h : nw ≠ old) :
    aget (rename_apply g old nw).adjacency_list_out old = none := by
  simp only [rename_apply]
  split
  · rw [aget_aset_ne _ _ _ _ (Ne.symm h), aget_adel_self]
  · rename_i hns
    simpa [Option.isNone_iff_eq_none] using hns

theorem rename_apply_adjIn_moved
    (h : (aget g.adjacency_list_in (some old)).isSome = true) :
    agetD (rename_apply g old nw).adjacency_list_in (some nw) [] =
      agetD g.adjacency_list_in (some old) [] := by
  simp only [rename_apply, h, if_true, agetD, aget_aset_self, Option.getD_some]

theorem rename_apply_adjIn_other (t : Option String) (h1 : t ≠ some old)
    (h2 : t ≠ some nw) :
    aget (rename_apply g old nw).adjacency_list_in t =
      aget g.adjacency_list_in t := by
  simp only [rename_apply]
  split
  · rw [aget_aset_ne _ _ _ _ h2, aget_adel_ne _ _ _ h1]
  · rfl

theorem rename_apply_adjIn_old (h : nw ≠ old) :
    aget (rename_apply g old nw).adjacency_list_in (some old) = none := by
  simp only [rename_apply]
  split
  · rw [aget_aset_ne _ _ _ _ (by simpa using Ne.symm h), aget_adel_self]
  · rename_i hns
    simpa [Option.isNone_iff_eq_none] using hns

theorem renameRewriteEdge_id (ids : List Nat) (e : Edge E) :
    (renameRewriteEdge old nw ids e).id = e.id := by
  unfold renameRewriteEdge; split <;> rfl

theorem renameRewriteEdge_source_of_ne (ids : List Nat) (e : Edge E)
    (h : e.source ≠ old) : (renameRewriteEdge old nw ids e).source = e.source := by
  unfold renameRewriteEdge
  split
  · simp [h]
  · rfl

theorem renameRewriteEdge_source_of_eq (ids : List Nat) (e : Edge E)
    (h : e.source = old) (hm : e.id ∈ ids) :
    (renameRewriteEdge old nw ids e).source = nw := by
  unfold renameRewriteEdge
  simp [hm, h]

theorem renameRewriteEdge_target_of_ne (ids : List Nat) (e : Edge E)
    (h : e.target ≠ some old) :
    (renameRewriteEdge old nw ids e).target = e.target := by
  unfold renameRewriteEdge
  split
  · simp [h]
  · rfl

theorem renameRewriteEdge_target_of_eq (ids : List Nat) (e : Edge E)
    (h : e.target = some old) (hm : e.id ∈ ids) :
    (renameRewriteEdge old nw ids e).target = some nw := by
  unfold renameRewriteEdge
  simp [hm, h]

/-- A node other than the renamed one that resolved before still resolves. -/
theorem nodeExistsB_rename_of (hbrNew : isBracketed nw = true)
    (hcol : aget g.characters nw = none ∨ nw = old) (s : String) (h1 : s ≠ old)
    (hs : nodeExistsB g s = true) :
    nodeExistsB (rename_apply g old nw) s = true := by
  unfold nodeExistsB at hs ⊢
  by_cases hb : isBracketed s = true
  · rw [if_pos hb] at hs ⊢
    by_cases h2 : s = nw
    · subst h2
      rw [rename_apply_chars_new]; rfl
    · rw [rename_apply_chars_other _ _ _ _ h1 h2]; exact hs
  · rw [if_neg hb] at hs ⊢
    rw [rename_apply_objects]; exact hs

/-- The new name resolves after the rename. -/
theorem nodeExistsB_rename_new (hbrNew : isBracketed nw = true) :
    nodeExistsB (rename_apply g old nw) nw = true := by
  unfold nodeExistsB
  rw [if_pos hbrNew, rename_apply_chars_new]
  rfl

/-- rename_apply preserves the edge-store invariant. -/
theorem rename_apply_inv (hbrNew : isBracketed nw = true)
    (hcol : aget g.characters nw = none ∨ nw = old) (hInv : GraphInv g) :
    GraphInv (rename_apply g old nw) := by
  intro e' he'
  rw [rename_apply_edges] at he'
  obtain ⟨e, he, rfl⟩ := List.mem_map.mp he'
  obtain ⟨hs, ht, ho, hi⟩ := hInv e he
  have hsrc_ne_nw : e.source ≠ old → e.source ≠ nw := by
    intro hne heq
    subst heq
    unfold nodeExistsB at hs
    rw [if_pos hbrNew] at hs
    rcases hcol with hc | hc
    · rw [hc] at hs; simp at hs
    · exact hne hc
  have htgt_ne_nw : e.target ≠ some old → e.target ≠ some nw := by
    intro hne heq
    have ht2 : nodeExistsB g nw = true := by rw [heq] at ht; exact ht
    unfold nodeExistsB at ht2
    rw [if_pos hbrNew] at ht2
    rcases hcol with hc | hc
    · rw [hc] at ht2; simp at ht2
    · exact hne (heq.trans (by rw [hc]))
  refine ⟨?_, ?_, ?_, ?_⟩
  · -- the source of the rewritten edge resolves
    by_cases hso : e.source = old
    · have hm : e.id ∈ renameIds g old :=
        List.mem_append_left _ (by rw [← hso]; exact ho)
      rw [renameRewriteEdge_source_of_eq _ _ _ _ hso hm]
      exact nodeExistsB_rename_new g old nw hbrNew
    · rw [renameRewriteEdge_source_of_ne _ _ _ _ hso]
      exact nodeExistsB_rename_of g old nw hbrNew hcol _ hso hs
  · -- the target of the rewritten edge resolves (or is null)
    by_cases hto : e.target = some old
    · have hm : e.id ∈ renameIds g old :=
        List.mem_append_right _ (by rw [← hto]; exact hi)
      rw [renameRewriteEdge_target_of_eq _ _ _ _ hto hm]
      unfold targetOkB
      exact nodeExistsB_rename_new g old nw hbrNew
    · rw [renameRewriteEdge_target_of_ne _ _ _ _ hto]
      cases hte : e.target with
      | none => rfl
      | some t =>
        rw [hte] at ht hto
        unfold targetOkB at ht ⊢
        exact nodeExistsB_rename_of g old nw hbrNew hcol _
          (fun hh => hto (by rw [hh])) ht
  · -- the id is listed in the outgoing adjacency of the (new) source
    rw [renameRewriteEdge_id]
    by_cases hso : e.source = old
    · have hm : e.id ∈ agetD g.adjacency_list_out old [] := by
        rw [← hso]; exact ho
      have hm2 : e.id ∈ renameIds g old := List.mem_append_left _ hm
      rw [renameRewriteEdge_source_of_eq _ _ _ _ hso hm2]
      rw [rename_apply_adjOut_moved _ _ _ (agetD_mem_isSome _ _ _ hm)]
      exact hm
    · rw [renameRewriteEdge_source_of_ne _ _ _ _ hso]
      unfold agetD
      rw [rename_apply_adjOut_other _ _ _ _ hso (hsrc_ne_nw hso)]
      exact ho
  · -- the id is listed in the incoming adjacency of the (new) target
    rw [renameRewriteEdge_id]
    by_cases hto : e.target = some old
    · have hm : e.id ∈ agetD g.adjacency_list_in (some old) [] := by
        rw [← hto]; exact hi
      have hm2 : e.id ∈ renameIds g old := List.mem_append_right _ hm
      rw [renameRewriteEdge_target_of_eq _ _ _ _ hto hm2]
      rw [rename_apply_adjIn_moved _ _ _ (agetD_mem_isSome _ _ _ hm)]
      exact hm
    · rw [renameRewriteEdge_target_of_ne _ _ _ _ hto]
      unfold agetD
      rw [rename_apply_adjIn_other _ _ _ _ hto (htgt_ne_nw hto)]
      exact hi

end Rename

/-- rename_character preserves the edge-store invariant on both outcomes. -/
theorem rename_character_inv (g : HeteroGraph E) (o n : String)
    (hInv : GraphInv g) : GraphInv (rename_character g o n).2 := by
  unfold rename_character
  dsimp only
  split
  · exact hInv
  · split
    · exact hInv
    · split
      · exact hInv
      · rename_i hsome hgen hncol
        refine rename_apply_inv g (normalizeName o) (angleWrap (stripAngles n))
          (isBracketed_angleWrap _) ?_ hInv
        by_cases hh : angleWrap (stripAngles n) = normalizeName o
        · exact Or.inr hh
        · left
          cases hc : aget g.characters (angleWrap (stripAngles n)) with
          | none => rfl
          | some c =>
            exact absurd ⟨by rw [hc]; rfl, hh⟩ hncol

/-! ## Invariant preservation of the remaining mutations -/

/-- A mutation that keeps edges and adjacency and only grows the node tables
    preserves the invariant. -/
theorem GraphInv_mono (g g' : HeteroGraph E) (he : g'.edges = g.edges)
    (ho : g'.adjacency_list_out = g.adjacency_list_out)
    (hi : g'.adjacency_list_in = g.adjacency_list_in)
    (hn : ∀ s, nodeExistsB g s = true → nodeExistsB g' s = true)
    (hInv : GraphInv g) : GraphInv g' := by
  intro e hee
  rw [he] at hee
  obtain ⟨h1, h2, h3, h4⟩ := hInv e hee
  refine ⟨hn _ h1, ?_, ?_, ?_⟩
  · cases ht : e.target with
    | none => rfl
    | some t =>
      rw [ht] at h2
      show nodeExistsB g' t = true
      exact hn t h2
  · unfold agetD at h3 ⊢
    rw [ho]; exact h3
  · unfold agetD at h4 ⊢
    rw [hi]; exact h4

theorem nodeExistsB_addchar_mono (g : HeteroGraph E) (nm : String)
    (c : CharacterNode E) (s : String) (hs : nodeExistsB g s = true) :
    nodeExistsB { g with characters := aset g.characters nm c } s = true := by
  unfold nodeExistsB at hs ⊢
  by_cases hb : isBracketed s = true
  · rw [if_pos hb] at hs ⊢
    exact aget_aset_isSome _ _ _ _ hs
  · rw [if_neg hb] at hs ⊢
    exact hs

theorem nodeExistsB_addobj_mono (g : HeteroGraph E) (nm : String)
    (c : ObjectNode E) (s : String) (hs : nodeExistsB g s = true) :
    nodeExistsB { g with objects := aset g.objects nm c } s = true := by
  unfold nodeExistsB at hs ⊢
  by_cases hb : isBracketed s = true
  · rw [if_pos hb] at hs ⊢
    exact hs
  · rw [if_neg hb] at hs ⊢
    exact aget_aset_isSome _ _ _ _ hs

/-- add_character preserves the invariant. -/
theorem add_character_inv (g : HeteroGraph E) (name : String)
    (hInv : GraphInv g) : GraphInv (add_character g name).2 := by
  simp only [add_character]
  split
  · exact hInv
  · exact GraphInv_mono g _ rfl rfl rfl
      (nodeExistsB_addchar_mono g (normalizeName name) _) hInv

/-- get_or_create_object_node preserves the invariant. -/
theorem get_or_create_object_node_inv (g : HeteroGraph E) (name : String)
    (hInv : GraphInv g) : GraphInv (get_or_create_object_node g name).2 := by
  simp only [get_or_create_object_node]
  split
  · exact hInv
  · exact GraphInv_mono g _ rfl rfl rfl
      (nodeExistsB_addobj_mono g name _) hInv

/-- add_edge succeeds exactly when both endpoints resolve, and then yields the
    id together with the extended graph. -/
theorem add_edge_ok_iff (g : HeteroGraph E) (e : Edge E) :
    add_edge g e = .ok (e.id, add_edge_result g e) ↔
      (nodeExistsB g e.source = true ∧ targetOkB g e.target = true) := by
  unfold add_edge add_edge_result
  constructor
  · intro h
    by_cases h1 : nodeExistsB g e.source = true
    · by_cases h2 : targetOkB g e.target = true
      · exact ⟨h1, h2⟩
      · rw [if_neg (by simpa using h1), if_pos (by simpa using h2)] at h
        exact absurd h (by simp)
    · rw [if_pos (by simpa using h1)] at h
      exact absurd h (by simp)
  · intro ⟨h1, h2⟩
    rw [if_neg (by simpa using h1), if_neg (by simpa using h2)]

/-- add_edge fails exactly when the source or a non-null target is missing,
    and then the graph is left untouched (the error carries no state). -/
theorem add_edge_error_iff (g : HeteroGraph E) (e : Edge E) :
    (∃ m, add_edge g e = .error m) ↔
      ¬ (nodeExistsB g e.source = true ∧ targetOkB g e.target = true) := by
  unfold add_edge
  constructor
  · intro ⟨m, hm⟩ ⟨h1, h2⟩
    rw [if_neg (by simpa using h1), if_neg (by simpa using h2)] at hm
    exact absurd hm (by simp)
  · intro h
    by_cases h1 : nodeExistsB g e.source = true
    · by_cases h2 : targetOkB g e.target = true
      · exact absurd ⟨h1, h2⟩ h
      · exact ⟨_, by rw [if_neg (by simpa using h1), if_pos (by simpa using h2)]⟩
    · exact ⟨_, by rw [if_pos (by simpa using h1)]⟩

theorem nodeExistsB_add_edge_result (g : HeteroGraph E) (e : Edge E)
    (s : String) : nodeExistsB (add_edge_result g e) s = nodeExistsB g s := rfl

/-- A successful add_edge preserves the invariant. -/
theorem add_edge_result_inv (g : HeteroGraph E) (e : Edge E)
    (h1 : nodeExistsB g e.source = true) (h2 : targetOkB g e.target = true)
    (hInv : GraphInv g) : GraphInv (add_edge_result g e) := by
  intro e0 he0
  have he0' : e0 ∈ g.edges ++ [e] := he0
  rcases List.mem_append.mp he0' with hold | hnew
  · obtain ⟨k1, k2, k3, k4⟩ := hInv e0 hold
    refine ⟨k1, ?_, ?_, ?_⟩
    · cases ht : e0.target with
      | none => rfl
      | some t => rw [ht] at k2; exact k2
    · show e0.id ∈ agetD (aappend g.adjacency_list_out e.source e.id) e0.source []
      by_cases hk : e0.source = e.source
      · rw [hk, agetD_aappend_self]
        exact List.mem_append_left _ (by rw [← hk]; exact k3)
      · rw [agetD_aappend_ne _ _ _ _ hk]
        exact k3
    · show e0.id ∈ agetD (aappend g.adjacency_list_in e.target e.id) e0.target []
      by_cases hk : e0.target = e.target
      · rw [hk, agetD_aappend_self]
        exact List.mem_append_left _ (by rw [← hk]; exact k4)
      · rw [agetD_aappend_ne _ _ _ _ hk]
        exact k4
  · rw [List.mem_singleton.mp hnew]
    refine ⟨h1, ?_, ?_, ?_⟩
    · cases ht : e.target with
      | none => rfl
      | some t => rw [ht] at h2; exact h2
    · show e.id ∈ agetD (aappend g.adjacency_list_out e.source e.id) e.source []
      rw [agetD_aappend_self]
      exact List.mem_append_right _ (List.mem_singleton.mpr rfl)
    · show e.id ∈ agetD (aappend g.adjacency_list_in e.target e.id) e.target []
      rw [agetD_aappend_self]
      exact List.mem_append_right _ (List.mem_singleton.mpr rfl)

/-- Any successful add_edge outcome satisfies the invariant. -/
theorem add_edge_inv (g : HeteroGraph E) (e : Edge E) (hInv : GraphInv g) :
    ∀ p, add_edge g e = .ok p → GraphInv p.2 := by
  intro p hp
  by_cases h1 : nodeExistsB g e.source = true
  · by_cases h2 : targetOkB g e.target = true
    · have := (add_edge_ok_iff g e).mpr ⟨h1, h2⟩
      rw [this] at hp
      cases hp
      exact add_edge_result_inv g e h1 h2 hInv
    · obtain ⟨m, hm⟩ := (add_edge_error_iff g e).mpr (fun hh => h2 hh.2)
      rw [hm] at hp; exact absurd hp (by simp)
  · obtain ⟨m, hm⟩ := (add_edge_error_iff g e).mpr (fun hh => h1 hh.1)
    rw [hm] at hp; exact absurd hp (by simp)

/-- Any successful add_high_level_edge outcome satisfies the invariant. -/
theorem add_high_level_edge_inv (g : HeteroGraph E) (e : Edge E)
    (hInv : GraphInv g) : ∀ p, add_high_level_edge g e = .ok p → GraphInv p.2 := by
  intro p hp
  unfold add_high_level_edge at hp
  split at hp
  · cases hae : add_edge g e with
    | error m => rw [hae] at hp; exact absurd hp (by simp [Except.map])
    | ok q =>
      rw [hae] at hp
      simp only [Except.map] at hp
      cases hp
      exact add_edge_inv g e hInv q hae
  · split at hp
    · rename_i ex hex
      split at hp
      · cases hp
        intro e0 he0
        simp only at he0
        obtain ⟨e1, he1, rfl⟩ := List.mem_map.mp he0
        obtain ⟨k1, k2, k3, k4⟩ := hInv e1 he1
        by_cases hid : e1.id = ex.id
        · rw [if_pos hid]
          exact ⟨k1, k2, k3, k4⟩
        · rw [if_neg hid]
          exact ⟨k1, k2, k3, k4⟩
      · cases hp
        exact hInv
    · cases hae : add_edge g e with
      | error m => rw [hae] at hp; exact absurd hp (by simp [Except.map])
      | ok q =>
        rw [hae] at hp
        simp only [Except.map] at hp
        cases hp
        exact add_edge_inv g e hInv q hae

theorem foldlM_except_inv {σ α : Type} (P : σ → Prop) (f : σ → α → Except σ σ)
    (hstep : ∀ s a, P s → exceptStateP P (f s a)) (l : List α) :
    ∀ s, P s → exceptStateP P (l.foldlM f s) := by
  induction l with
  | nil => intro s hs; exact hs
  | cons a l ih =>
    intro s hs
    rw [List.foldlM_cons]
    have h := hstep s a hs
    cases hf : f s a with
    | ok s1 =>
      rw [hf] at h
      exact ih s1 h
    | error s1 =>
      rw [hf] at h
      exact h

/-- match_and_merge_character preserves the invariant. -/
theorem match_and_merge_character_inv (getEmb : String → Option E)
    (cosSim : E → E → Option Rat) (g : HeteroGraph E)
    (app : List (String × String)) (nm : String) (hInv : GraphInv g) :
    GraphInv (match_and_merge_character getEmb cosSim g app nm).2.1 := by
  unfold match_and_merge_character
  split
  · exact hInv
  · split
    · exact hInv
    · split
      · exact hInv
      · split
        · exact rename_character_inv _ _ _ hInv
        · exact hInv

/-- resolveCharacterNode preserves the invariant. -/
theorem resolveCharacterNode_inv (getEmb : String → Option E)
    (cosSim : E → E → Option Rat) (g : HeteroGraph E)
    (app : List (String × String)) (nm : String) (hInv : GraphInv g) :
    GraphInv (resolveCharacterNode getEmb cosSim g app nm).2.1 := by
  unfold resolveCharacterNode
  split
  · exact hInv
  · dsimp only
    split
    · exact match_and_merge_character_inv getEmb cosSim g app nm hInv
    · exact add_character_inv _ _
        (match_and_merge_character_inv getEmb cosSim g app nm hInv)

/-- resolveNode preserves the invariant. -/
theorem resolveNode_inv (getEmb : String → Option E)
    (cosSim : E → E → Option Rat) (g : HeteroGraph E)
    (app : List (String × String)) (raw : String) (hInv : GraphInv g) :
    GraphInv (resolveNode getEmb cosSim g app raw).2.1 := by
  unfold resolveNode
  dsimp only
  split
  · exact resolveCharacterNode_inv getEmb cosSim g app _ hInv
  · exact get_or_create_object_node_inv g _ hInv

/-- One insert_triples iteration preserves the invariant on both outcomes. -/
theorem insertTriplesStep_inv (getEmb : String → Option E)
    (cosSim : E → E → Option Rat) (clip : Nat) (scene : String)
    (st : TState E) (t : Triple) (hInv : GraphInv st.1) :
    exceptStateP (fun s : TState E => GraphInv s.1)
      (insertTriplesStep getEmb cosSim clip scene st t) := by
  obtain ⟨g, app, seen, ctr⟩ := st
  unfold insertTriplesStep
  cases t.source with
  | none => exact hInv
  | some src0 =>
    cases t.content with
    | none => exact hInv
    | some c =>
      dsimp only
      split
      · exact hInv
      · have h1 := resolveNode_inv getEmb cosSim g app src0 hInv
        rcases hres : resolveNode getEmb cosSim g app src0 with ⟨srcName, g1, app1⟩
        rw [hres] at h1
        dsimp only at h1 ⊢
        cases htt : t.target with
        | none =>
          dsimp only
          split
          · exact h1
          · split
            · exact h1
            · split
              · exact h1
              · rename_i r hr
                exact add_edge_inv g1 _ h1 r hr
        | some ts =>
          dsimp only
          by_cases hnull : strToLower ts = "null"
          · rw [if_pos hnull]
            dsimp only
            split
            · exact h1
            · split
              · exact h1
              · split
                · exact h1
                · rename_i r hr
                  exact add_edge_inv g1 _ h1 r hr
          · rw [if_neg hnull]
            have h2 := resolveNode_inv getEmb cosSim g1 app1 ts h1
            rcases hres2 : resolveNode getEmb cosSim g1 app1 ts with ⟨tgtName, g2, app2⟩
            rw [hres2] at h2
            dsimp only at h2 ⊢
            split
            · exact h2
            · split
              · exact h2
              · split
                · exact h2
                · rename_i r hr
                  exact add_edge_inv g2 _ h2 r hr

/-- Both outcomes of insert_triples satisfy the invariant. -/
theorem insert_triples_inv (getEmb : String → Option E)
    (cosSim : E → E → Option Rat) (g : HeteroGraph E) (triples : List Triple)
    (clip : Nat) (scene : String) (app : List (String × String)) (ctr : Nat)
    (hInv : GraphInv g) :
    exceptStateP (fun p : HeteroGraph E × Nat => GraphInv p.1)
      (insert_triples getEmb cosSim g triples clip scene app ctr) := by
  unfold insert_triples
  split
  · exact hInv
  · have h := foldlM_except_inv (fun s : TState E => GraphInv s.1)
      (insertTriplesStep getEmb cosSim clip scene)
      (fun s a hs => insertTriplesStep_inv getEmb cosSim clip scene s a hs)
      triples (g, app, ([] : List TripleKey), ctr) hInv
    cases hf : triples.foldlM (insertTriplesStep getEmb cosSim clip scene)
        ((g, app, ([] : List TripleKey), ctr) : TState E) with
    | ok s =>
      rw [hf] at h
      obtain ⟨g', a', s', c'⟩ := s
      exact h
    | error s =>
      rw [hf] at h
      obtain ⟨g', a', s', c'⟩ := s
      exact h

/-! ## Claim C8: rename_character failure conditions and atomicity -/

/-- C8: rename_character(old, new) fails exactly when old (after bracket
    normalization) does not match the generic pattern, or old is absent from
    the character table, or new already exists as a different character; and
    whenever it fails the graph is left completely unchanged. -/
theorem claim_C8_rename_failure (g : HeteroGraph E) (o n : String) :
    ((rename_character g o n).1 = false ↔
      (aget g.characters (normalizeName o) = none ∨
       isGenericCharacterName (normalizeName o) = false ∨
       ((aget g.characters (angleWrap (stripAngles n))).isSome = true ∧
        angleWrap (stripAngles n) ≠ normalizeName o))) ∧
    ((rename_character g o n).1 = false → (rename_character g o n).2 = g) := by
  unfold rename_character
  dsimp only
  split
  · rename_i h1
    exact ⟨⟨fun _ => Or.inl (Option.isNone_iff_eq_none.mp h1), fun _ => rfl⟩,
      fun _ => rfl⟩
  · split
    · rename_i h1 h2
      refine ⟨⟨fun _ => Or.inr (Or.inl ?_), fun _ => rfl⟩, fun _ => rfl⟩
      simpa using h2
    · split
      · rename_i h1 h2 h3
        exact ⟨⟨fun _ => Or.inr (Or.inr h3), fun _ => rfl⟩, fun _ => rfl⟩
      · rename_i h1 h2 h3
        constructor
        · constructor
          · intro h; exact absurd h (by simp)
          · intro hd
            exfalso
            rcases hd with hc | hc | hc
            · rw [hc] at h1; exact h1 rfl
            · rw [hc] at h2; exact absurd h2 (by simp)
            · exact h3 hc
        · intro h; exact absurd h (by simp)

/-! ## Claim C2: successful rename rewrites every reference -/

/-- C2: on a graph satisfying the invariant, containing the generic character
    old and not containing new, rename_character succeeds; afterwards old is
    absent from the character table, new is present, no stored edge has source
    or target equal to old, the old adjacency keys are gone and both adjacency
    lists have moved to the new key. -/
theorem claim_C2_rename_rewrites (g : HeteroGraph E) (o n : String)
    (hInv : GraphInv g)
    (hgen : isGenericCharacterName (normalizeName o) = true)
    (hold : (aget g.characters (normalizeName o)).isSome = true)
    (hnew : aget g.characters (angleWrap (stripAngles n)) = none) :
    (rename_character g o n).1 = true ∧
    aget (rename_character g o n).2.characters (normalizeName o) = none ∧
    (aget (rename_character g o n).2.characters
      (angleWrap (stripAngles n))).isSome = true ∧
    (∀ e ∈ (rename_character g o n).2.edges,
      e.source ≠ normalizeName o ∧ e.target ≠ some (normalizeName o)) ∧
    aget (rename_character g o n).2.adjacency_list_out (normalizeName o) = none ∧
    aget (rename_character g o n).2.adjacency_list_in
      (some (normalizeName o)) = none ∧
    ((aget g.adjacency_list_out (normalizeName o)).isSome = true →
      agetD (rename_character g o n).2.adjacency_list_out
        (angleWrap (stripAngles n)) [] =
      agetD g.adjacency_list_out (normalizeName o) []) ∧
    ((aget g.adjacency_list_in (some (normalizeName o))).isSome = true →
      agetD (rename_character g o n).2.adjacency_list_in
        (some (angleWrap (stripAngles n))) [] =
      agetD g.adjacency_list_in (some (normalizeName o)) []) := by
  have hneq : angleWrap (stripAngles n) ≠ normalizeName o := by
    intro hh
    rw [hh] at hnew
    rw [hnew] at hold
    exact absurd hold (by simp)
  have hc1 : ¬ ((aget g.characters (normalizeName o)).isNone = true) := by
    intro hh
    rw [Option.isNone_iff_eq_none] at hh
    rw [hh] at hold
    exact absurd hold (by simp)
  have hc2 : ¬ ((!isGenericCharacterName (normalizeName o)) = true) := by
    simp [hgen]
  have hc3 : ¬ ((aget g.characters (angleWrap (stripAngles n))).isSome = true ∧
      angleWrap (stripAngles n) ≠ normalizeName o) := by
    intro hh
    rw [hnew] at hh
    exact absurd hh.1 (by simp)
  have hrw : rename_character g o n =
      (true, rename_apply g (normalizeName o) (angleWrap (stripAngles n))) := by
    unfold rename_character
    dsimp only
    rw [if_neg hc1, if_neg hc2, if_neg hc3]
  rw [hrw]
  dsimp only
  refine ⟨rfl, ?_, ?_, ?_, ?_, ?_, ?_, ?_⟩
  · exact rename_apply_chars_old g _ _ hneq
  · rw [rename_apply_chars_new]; rfl
  · intro e' he'
    rw [rename_apply_edges] at he'
    obtain ⟨e, he, rfl⟩ := List.mem_map.mp he'
    obtain ⟨hs, ht, ho, hi⟩ := hInv e he
    constructor
    · by_cases hso : e.source = normalizeName o
      · have hm2 : e.id ∈ renameIds g (normalizeName o) :=
          List.mem_append_left _ (by rw [← hso]; exact ho)
        rw [renameRewriteEdge_source_of_eq _ _ _ _ hso hm2]
        exact hneq
      · rw [renameRewriteEdge_source_of_ne _ _ _ _ hso]
        exact hso
    · by_cases hto : e.target = some (normalizeName o)
      · have hm2 : e.id ∈ renameIds g (normalizeName o) :=
          List.mem_append_right _ (by rw [← hto]; exact hi)
        rw [renameRewriteEdge_target_of_eq _ _ _ _ hto hm2]
        intro hh
        exact hneq (Option.some_injective _ hh)
      · rw [renameRewriteEdge_target_of_ne _ _ _ _ hto]
        exact hto
  · exact rename_apply_adjOut_old g _ _ hneq
  · exact rename_apply_adjIn_old g _ _ hneq
  · intro hh
    exact rename_apply_adjOut_moved g _ _ hh
  · intro hh
    exact rename_apply_adjIn_moved g _ _ hh

/-! ## Claim C3: referential integrity after every mutation -/

/-- C3: starting from a graph satisfying the edge-store invariant, every
    mutation (add_character, add_edge, add_high_level_edge, insert_triples,
    rename_character) preserves it: every stored edge has a resolving source,
    a null or resolving target, and its id recorded in the outgoing adjacency
    of its source and the incoming adjacency of its target (sentinel key for a
    null target); moreover add_edge fails with an error, inserting nothing,
    exactly when the source or a non-null target is missing. -/
theorem claim_C3_mutations_preserve_invariant (getEmb : String → Option E)
    (cosSim : E → E → Option Rat) (g : HeteroGraph E) (hInv : GraphInv g) :
    (∀ name, GraphInv (add_character g name).2) ∧
    (∀ e : Edge E,
      (∀ p, add_edge g e = .ok p → GraphInv p.2) ∧
      ((∃ m, add_edge g e = .error m) ↔
        ¬ (nodeExistsB g e.source = true ∧ targetOkB g e.target = true))) ∧
    (∀ e : Edge E, ∀ p, add_high_level_edge g e = .ok p → GraphInv p.2) ∧
    (∀ triples clip scene app ctr,
      exceptStateP (fun p : HeteroGraph E × Nat => GraphInv p.1)
        (insert_triples getEmb cosSim g triples clip scene app ctr)) ∧
    (∀ o n, GraphInv (rename_character g o n).2) := by
  refine ⟨?_, ?_, ?_, ?_, ?_⟩
  · intro name
    exact add_character_inv g name hInv
  · intro e
    exact ⟨add_edge_inv g e hInv, add_edge_error_iff g e⟩
  · intro e p hp
    exact add_high_level_edge_inv g e hInv p hp
  · intro triples clip scene app ctr
    exact insert_triples_inv getEmb cosSim g triples clip scene app ctr hInv
  · intro o n
    exact rename_character_inv g o n hInv

theorem claim_C2_witness :
    (rename_character gW "character_1" "Bob").1 = true ∧
    aget (rename_character gW "character_1" "Bob").2.characters
      "<character_1>" = none ∧
    (aget (rename_character gW "character_1" "Bob").2.characters
      "<Bob>").isSome = true ∧
    (∀ e ∈ (rename_character gW "character_1" "Bob").2.edges,
      e.source ≠ "<character_1>" ∧ e.target ≠ some "<character_1>") := by
  have h := claim_C2_rename_rewrites gW "character_1" "Bob"
    (by decide) (by decide) (by decide) (by decide)
  exact ⟨h.1, h.2.1, h.2.2.1, h.2.2.2.1⟩

theorem claim_C3_witness :
    GraphInv gW ∧
    GraphInv (add_character gW "Zoe").2 ∧
    GraphInv (rename_character gW "character_1" "Bob").2 := by
  have h := claim_C3_mutations_preserve_invariant
    (fun _ : String => (none : Option Unit)) (fun _ _ => (none : Option Rat))
    gW (by decide)
  exact ⟨by decide, h.1 "Zoe", h.2.2.2.2 "character_1" "Bob"⟩

/-! ## Claim C1: high-level dedup and confidence reconciliation -/

theorem matching_confs_singleton (g : HeteroGraph E) (source content : String)
    (target : Option String) (m : Option Rat)
    (hmc : matching_confs g source content target = [m]) :
    ∃ ex, g.edges.filter (hl_edge_matches source content target 0) = [ex] ∧
      ex.confidence = m := by
  unfold matching_confs at hmc
  cases hf : g.edges.filter (hl_edge_matches source content target 0) with
  | nil => rw [hf] at hmc; exact absurd hmc (by simp)
  | cons a t =>
    rw [hf] at hmc
    simp only [List.map_cons, List.cons.injEq] at hmc
    obtain ⟨h1, h2⟩ := hmc
    have ht : t = [] := by
      cases t with
      | nil => rfl
      | cons b t2 => exact absurd h2 (by simp)
    exact ⟨a, by rw [ht], h1⟩

theorem find_of_matching_singleton (g : HeteroGraph E) (source content : String)
    (target : Option String) (m : Option Rat)
    (hmc : matching_confs g source content target = [m]) :
    ∃ ex, find_existing_high_level_edge g source content target 0 = some ex ∧
      ex.confidence = m ∧
      g.edges.filter (hl_edge_matches source content target 0) = [ex] := by
  obtain ⟨ex, hfil, hconf⟩ := matching_confs_singleton g source content target m hmc
  have hmem : ex ∈ g.edges.filter (hl_edge_matches source content target 0) := by
    rw [hfil]; exact List.mem_singleton.mpr rfl
  have hmem' := List.mem_filter.mp hmem
  have hsome : (g.edges.find? (hl_edge_matches source content target 0)).isSome := by
    rw [List.find?_isSome]
    exact ⟨ex, hmem'.1, hmem'.2⟩
  cases hfind : g.edges.find? (hl_edge_matches source content target 0) with
  | none => rw [hfind] at hsome; exact absurd hsome (by simp)
  | some ex1 =>
    have h1 : ex1 ∈ g.edges := List.mem_of_find?_eq_some hfind
    have h2 : hl_edge_matches source content target 0 ex1 = true :=
      List.find?_some hfind
    have : ex1 ∈ g.edges.filter (hl_edge_matches source content target 0) :=
      List.mem_filter.mpr ⟨h1, h2⟩
    rw [hfil] at this
    rw [List.mem_singleton.mp this] at hfind
    exact ⟨ex, hfind, hconf, hfil⟩

/-- The fresh edge built by assert_confidences always matches its own triple. -/
theorem hl_edge_matches_mk (source content : String) (target : Option String)
    (idv : Nat) (c : Rat) :
    hl_edge_matches source content target 0
      ({ id := idv, clip_id := 0, source := source, target := target
         content := content, scene := none, confidence := some c } : Edge E) = true := by
  cases target <;> simp [hl_edge_matches]

/-- A duplicate assertion with lower or equal confidence is skipped: the call
    returns the sentinel none and the graph is completely unchanged. -/
theorem addHL_skip (g : HeteroGraph E) (source content : String)
    (target : Option String) (m c : Rat) (idv : Nat)
    (hmc : matching_confs g source content target = [some m]) (hle : c ≤ m) :
    add_high_level_edge g
      { id := idv, clip_id := 0, source := source, target := target
        content := content, scene := none, confidence := some c } =
      .ok (none, g) := by
  obtain ⟨ex, hfind, hconf, _⟩ :=
    find_of_matching_singleton g source content target (some m) hmc
  unfold add_high_level_edge
  rw [if_neg (by simp)]
  dsimp only
  rw [hfind]
  dsimp only
  rw [if_neg]
  intro hcond
  rcases hcond.2 with hn | hlt
  · rw [hconf] at hn; exact absurd hn (by simp)
  · rw [hconf] at hlt
    simp only [Option.getD_some] at hlt
    exact absurd hle (not_le.mpr hlt)

/-- A duplicate assertion with strictly higher confidence updates the stored
    edge in place: afterwards the triple still has exactly one high-level edge
    and its confidence is the new value. -/
theorem addHL_update (g : HeteroGraph E) (source content : String)
    (target : Option String) (m c : Rat) (idv : Nat)
    (hmc : matching_confs g source content target = [some m]) (hgt : m < c) :
    ∃ r g', add_high_level_edge g
      { id := idv, clip_id := 0, source := source, target := target
        content := content, scene := none, confidence := some c } =
      .ok (some r, g') ∧
      matching_confs g' source content target = [some c] ∧
      g'.characters = g.characters ∧ g'.objects = g.objects := by
  obtain ⟨ex, hfind, hconf, hfil⟩ :=
    find_of_matching_singleton g source content target (some m) hmc
  unfold add_high_level_edge
  rw [if_neg (by simp)]
  dsimp only
  rw [hfind]
  dsimp only
  rw [if_pos (by rw [hconf]; simpa using hgt)]
  set f := fun e2 : Edge E =>
    if e2.id = ex.id then { e2 with confidence := some c } else e2 with hfdef
  have hp : ∀ e2 : Edge E, hl_edge_matches source content target 0 (f e2) =
      hl_edge_matches source content target 0 e2 := by
    intro e2
    rw [hfdef]
    dsimp only
    by_cases hid : e2.id = ex.id
    · rw [if_pos hid]
      cases target <;> simp [hl_edge_matches]
    · rw [if_neg hid]
  have comm : ∀ l : List (Edge E),
      (l.map f).filter (hl_edge_matches source content target 0) =
      (l.filter (hl_edge_matches source content target 0)).map f := by
    intro l
    induction l with
    | nil => rfl
    | cons a t ih =>
      by_cases hpa : hl_edge_matches source content target 0 a = true
      · simp [List.filter_cons, hpa, hp a, ih]
      · simp [List.filter_cons, hpa, hp a, ih]
  refine ⟨ex.id, _, rfl, ?_, rfl, rfl⟩
  unfold matching_confs
  dsimp only
  rw [comm, hfil]
  rw [hfdef]
  simp

/-- A first assertion on a triple with no matching high-level edge inserts a
    new edge through add_edge, after which exactly that one matching edge is
    stored with the asserted confidence. -/
theorem addHL_new (g : HeteroGraph E) (source content : String)
    (target : Option String) (c : Rat) (idv : Nat)
    (hnone : matching_confs g source content target = [])
    (hsrc : nodeExistsB g source = true) (htgt : targetOkB g target = true) :
    add_high_level_edge g
      { id := idv, clip_id := 0, source := source, target := target
        content := content, scene := none, confidence := some c } =
      .ok (some idv, add_edge_result g
        { id := idv, clip_id := 0, source := source, target := target
          content := content, scene := none, confidence := some c }) ∧
    matching_confs (add_edge_result g
      { id := idv, clip_id := 0, source := source, target := target
        content := content, scene := none, confidence := some c })
      source content target = [some c] ∧
    (add_edge_result g
      { id := idv, clip_id := 0, source := source, target := target
        content := content, scene := none, confidence := some c }).characters =
      g.characters := by
  have hfil : g.edges.filter (hl_edge_matches source content target 0) = [] := by
    unfold matching_confs at hnone
    exact List.map_eq_nil_iff.mp hnone
  have hfind : find_existing_high_level_edge g source content target 0 = none := by
    unfold find_existing_high_level_edge
    rw [List.find?_eq_none]
    intro x hx hpx
    have : x ∈ g.edges.filter (hl_edge_matches source content target 0) :=
      List.mem_filter.mpr ⟨hx, hpx⟩
    rw [hfil] at this
    exact absurd this (by simp)
  refine ⟨?_, ?_, rfl⟩
  · unfold add_high_level_edge
    rw [if_neg (by simp)]
    dsimp only
    rw [hfind]
    dsimp only
    rw [(add_edge_ok_iff g _).mpr ⟨hsrc, htgt⟩]
    rfl
  · unfold matching_confs add_edge_result
    dsimp only
    rw [List.filter_append, hfil]
    simp only [List.nil_append]
    rw [List.filter_cons]
    rw [if_pos (by simpa using hl_edge_matches_mk source content target idv c)]
    rfl

/-- Once a triple has exactly one matching high-level edge, any further
    assertion sequence keeps exactly one and folds the confidences by max. -/
theorem assert_confidences_go (source content : String) (target : Option String) :
    ∀ (cs : List Rat) (g : HeteroGraph E) (ctr : Nat) (m : Rat),
    matching_confs g source content target = [some m] →
    ∃ g' ctr', assert_confidences g ctr source content target cs = .ok (g', ctr') ∧
      matching_confs g' source content target = [some (cs.foldl max m)] := by
  intro cs
  induction cs with
  | nil =>
    intro g ctr m hm
    exact ⟨g, ctr, rfl, by simpa using hm⟩
  | cons c cs ih =>
    intro g ctr m hm
    unfold assert_confidences
    rw [List.foldlM_cons]
    dsimp only
    by_cases hle : c ≤ m
    · rw [addHL_skip g source content target m c (ctr + 1) hm hle]
      obtain ⟨g', ctr', h1, h2⟩ := ih g (ctr + 1) m hm
      unfold assert_confidences at h1
      refine ⟨g', ctr', h1, ?_⟩
      rw [h2]
      rw [List.foldl_cons, max_eq_left hle]
    · push_neg at hle
      obtain ⟨r, g1, hstep, hm1, _, _⟩ :=
        addHL_update g source content target m c (ctr + 1) hm hle
      rw [hstep]
      obtain ⟨g', ctr', h1, h2⟩ := ih g1 (ctr + 1) c hm1
      unfold assert_confidences at h1
      refine ⟨g', ctr', h1, ?_⟩
      rw [h2]
      rw [List.foldl_cons, max_eq_right (le_of_lt hle)]

/-! ## Claim C1: the main dedup and confidence theorem -/

/-- C1: starting from a graph with no high-level edge for the triple and with
    existing endpoints, a sequence of add_high_level_edge calls on that triple
    (clip_id 0) leaves exactly one matching high-level edge whose confidence is
    the maximum confidence ever asserted; and on any graph holding exactly one
    matching edge with confidence m, a call asserting c at most m changes
    nothing and returns the sentinel none. -/
theorem claim_C1_high_level_dedup (g : HeteroGraph E) (ctr : Nat)
    (source content : String) (target : Option String) (c0 : Rat) (cs : List Rat)
    (hsrc : nodeExistsB g source = true) (htgt : targetOkB g target = true)
    (hnone : matching_confs g source content target = []) :
    (∃ g' ctr',
      assert_confidences g ctr source content target (c0 :: cs) = .ok (g', ctr') ∧
      matching_confs g' source content target = [some (cs.foldl max c0)]) ∧
    (∀ (g1 : HeteroGraph E) (m c : Rat) (idv : Nat),
      matching_confs g1 source content target = [some m] → c ≤ m →
      add_high_level_edge g1
        { id := idv, clip_id := 0, source := source, target := target
          content := content, scene := none, confidence := some c } =
        .ok (none, g1)) := by
  constructor
  · unfold assert_confidences
    rw [List.foldlM_cons]
    dsimp only
    obtain ⟨hstep, hm1, _⟩ :=
      addHL_new g source content target c0 (ctr + 1) hnone hsrc htgt
    rw [hstep]
    obtain ⟨g', ctr', h1, h2⟩ :=
      assert_confidences_go source content target cs _ (ctr + 1) c0 hm1
    unfold assert_confidences at h1
    exact ⟨g', ctr', h1, h2⟩
  · intro g1 m c idv hm hle
    exact addHL_skip g1 source content target m c idv hm hle

theorem claim_C1_witness :
    ∃ g' ctr',
      assert_confidences gA 0 "<Alice>" "kind" none [60, 80, 70] = .ok (g', ctr') ∧
      matching_confs g' "<Alice>" "kind" none = [some 80] := by
  have h := (claim_C1_high_level_dedup gA 0 "<Alice>" "kind" none 60 [80, 70]
    (by decide) (by decide) (by decide)).1
  have hmax : ([80, 70] : List Rat).foldl max 60 = 80 := by decide
  rw [hmax] at h
  exact h

/-! ## Claim C4: batch semantics of insert_triples -/

theorem normalizeName_of_bracketed (s : String) (h : isBracketed s = true) :
    normalizeName s = s := by
  unfold normalizeName
  unfold isBracketed at h
  rw [Bool.and_eq_true] at h
  rw [if_neg]
  simp [h.1, h.2]

/-- With an empty appearance map, endpoint resolution returns the trimmed name,
    touches only the node tables, and guarantees the resolved node exists. -/
theorem resolveNode_empty (getEmb : String → Option E)
    (cosSim : E → E → Option Rat) (g : HeteroGraph E) (raw : String) :
    ∃ g1, resolveNode getEmb cosSim g [] raw = (strTrim raw, g1, []) ∧
      g1.edges = g.edges ∧
      g1.adjacency_list_out = g.adjacency_list_out ∧
      g1.adjacency_list_in = g.adjacency_list_in ∧
      nodeExistsB g1 (strTrim raw) = true ∧
      (∀ s, nodeExistsB g s = true → nodeExistsB g1 s = true) := by
  unfold resolveNode parse_node_string
  dsimp only
  by_cases hb : isBracketed (strTrim raw) = true
  · rw [if_pos hb]
    unfold resolveCharacterNode
    by_cases hp : (aget g.characters (strTrim raw)).isSome = true
    · rw [if_pos hp]
      refine ⟨g, rfl, rfl, rfl, rfl, ?_, fun s hs => hs⟩
      unfold nodeExistsB
      rw [if_pos hb]
      exact hp
    · rw [if_neg hp]
      have hmm : match_and_merge_character getEmb cosSim g [] (strTrim raw) =
          (none, g, []) := rfl
      rw [hmm]
      dsimp only
      unfold add_character
      rw [normalizeName_of_bracketed _ hb]
      rw [if_neg hp]
      dsimp only
      refine ⟨_, rfl, rfl, rfl, rfl, ?_, ?_⟩
      · unfold nodeExistsB
        rw [if_pos hb]
        dsimp only
        rw [aget_aset_self]
        rfl
      · intro s hs
        exact nodeExistsB_addchar_mono g _ _ s hs
  · rw [if_neg hb]
    unfold get_or_create_object_node
    by_cases hp : (aget g.objects (strTrim raw)).isSome = true
    · rw [if_pos hp]
      refine ⟨g, rfl, rfl, rfl, rfl, ?_, fun s hs => hs⟩
      unfold nodeExistsB
      rw [if_neg hb]
      exact hp
    · rw [if_neg hp]
      refine ⟨_, rfl, rfl, rfl, rfl, ?_, ?_⟩
      · unfold nodeExistsB
        rw [if_neg hb]
        dsimp only
        rw [aget_aset_self]
        rfl
      · intro s hs
        exact nodeExistsB_addobj_mono g _ _ s hs

/-- The three behaviours of one insert_triples iteration over an empty
    appearance map: invalid triples are full no-ops, already-seen keys create
    no edge, and fresh keys append exactly the predicted edge. -/
theorem insertStep_empty_app (getEmb : String → Option E)
    (cosSim : E → E → Option Rat) (clip : Nat) (scene : String) (semb : E)
    (hscene : getEmb scene = some semb) (g : HeteroGraph E)
    (seen : List TripleKey) (ctr : Nat) (t : Triple) :
    (triple_resolved_key t = none ∧
      insertTriplesStep getEmb cosSim clip scene (g, [], seen, ctr) t =
        .ok (g, [], seen, ctr)) ∨
    (∃ k, triple_resolved_key t = some k ∧ k ∈ seen ∧
      ∃ g2, insertTriplesStep getEmb cosSim clip scene (g, [], seen, ctr) t =
        .ok (g2, [], seen, ctr) ∧ g2.edges = g.edges) ∨
    (∃ k, triple_resolved_key t = some k ∧ ¬ (k ∈ seen) ∧
      ∃ g3, insertTriplesStep getEmb cosSim clip scene (g, [], seen, ctr) t =
        .ok (g3, [], k :: seen, ctr + 1) ∧
        g3.edges = g.edges ++ [keyEdge clip scene (getEmb scene) (ctr + 1) k]) := by
  cases hsrc : t.source with
  | none =>
    left
    constructor
    · unfold triple_resolved_key; rw [hsrc]
    · unfold insertTriplesStep; rw [hsrc]
  | some src0 =>
    cases hcon : t.content with
    | none =>
      left
      constructor
      · unfold triple_resolved_key; rw [hsrc, hcon]
      · unfold insertTriplesStep; rw [hsrc, hcon]
    | some c =>
      by_cases htrim : strTrim c = ""
      · left
        constructor
        · unfold triple_resolved_key
          rw [hsrc, hcon]
          dsimp only
          rw [if_pos htrim]
        · unfold insertTriplesStep
          rw [hsrc, hcon]
          dsimp only
          rw [if_pos htrim]
      · obtain ⟨g1, hres1, hedg1, _, _, hex1, hmono1⟩ :=
          resolveNode_empty getEmb cosSim g src0
        -- resolve the target and record the facts needed for add_edge
        obtain ⟨tgtName, g2, heq2, htn, hedg2, hex2, htok2⟩ :
            ∃ (tgtName : Option String) (g2 : HeteroGraph E),
            (match t.target with
              | none => ((none : Option String), g1, ([] : List (String × String)))
              | some ts =>
                if strToLower ts = "null" then ((none : Option String), g1, [])
                else
                  (some (resolveNode getEmb cosSim g1 [] ts).1,
                   (resolveNode getEmb cosSim g1 [] ts).2.1,
                   (resolveNode getEmb cosSim g1 [] ts).2.2)) = (tgtName, g2, []) ∧
            tgtName = (match t.target with
              | none => none
              | some ts => if strToLower ts = "null" then none else some (strTrim ts)) ∧
            g2.edges = g.edges ∧
            nodeExistsB g2 (strTrim src0) = true ∧
            targetOkB g2 tgtName = true := by
          cases htt : t.target with
          | none => exact ⟨none, g1, rfl, rfl, hedg1, hex1, rfl⟩
          | some ts =>
            dsimp only
            by_cases hnull : strToLower ts = "null"
            · rw [if_pos hnull, if_pos hnull]
              exact ⟨none, g1, rfl, rfl, hedg1, hex1, rfl⟩
            · rw [if_neg hnull, if_neg hnull]
              obtain ⟨g2, hres2, hedg2, _, _, hex2, hmono2⟩ :=
                resolveNode_empty getEmb cosSim g1 ts
              rw [hres2]
              refine ⟨some (strTrim ts), g2, rfl, rfl, by rw [hedg2, hedg1],
                hmono2 _ hex1, hex2⟩
        have hkey : triple_resolved_key t = some (strTrim src0, tgtName, c) := by
          unfold triple_resolved_key
          rw [hsrc, hcon]
          dsimp only
          rw [if_neg htrim, htn]
        have hstep : ∀ res, (if (strTrim src0, tgtName, c) ∈ seen then
              Except.ok (g2, ([] : List (String × String)), seen, ctr)
            else
              match getEmb scene with
              | none => Except.error (g2, ([] : List (String × String)),
                  (strTrim src0, tgtName, c) :: seen, ctr)
              | some semb2 =>
                match add_edge g2
                  { id := ctr + 1, clip_id := clip, source := strTrim src0
                    target := tgtName, content := c, scene := some scene
                    scene_embedding := some semb2 } with
                | .error _ => Except.ok (g2, [], (strTrim src0, tgtName, c) :: seen, ctr + 1)
                | .ok r => Except.ok (r.2, [], (strTrim src0, tgtName, c) :: seen, ctr + 1)) = res →
            insertTriplesStep getEmb cosSim clip scene (g, [], seen, ctr) t = res := by
          intro res hres
          unfold insertTriplesStep
          rw [hsrc, hcon]
          dsimp only
          rw [if_neg htrim, hres1]
          dsimp only
          rw [heq2]
          exact hres
        by_cases hks : (strTrim src0, tgtName, c) ∈ seen
        · right; left
          refine ⟨_, hkey, hks, g2, ?_, hedg2⟩
          apply hstep
          rw [if_pos hks]
        · right; right
          refine ⟨_, hkey, hks, ?_⟩
          have hok := (add_edge_ok_iff g2
            { id := ctr + 1, clip_id := clip, source := strTrim src0
              target := tgtName, content := c, scene := some scene
              scene_embedding := some semb }).mpr ⟨hex2, htok2⟩
          refine ⟨add_edge_result g2
            { id := ctr + 1, clip_id := clip, source := strTrim src0
              target := tgtName, content := c, scene := some scene
              scene_embedding := some semb }, ?_, ?_⟩
          · apply hstep
            rw [if_neg hks, hscene]
            dsimp only
            rw [hok]
          · show g2.edges ++ _ = g.edges ++ _
            rw [hedg2, hscene]
            rfl

/-- The id sequence of the produced edges is consecutive and increasing. -/
theorem keyEdges_ids (clip : Nat) (scene : String) (se : Option E) :
    ∀ (ks : List TripleKey) (ctr : Nat),
    (keyEdges clip scene se ctr ks).map (fun e => e.id) =
      List.range' (ctr + 1) ks.length := by
  intro ks
  induction ks with
  | nil => intro ctr; rfl
  | cons k ks ih =>
    intro ctr
    show (ctr + 1) :: (keyEdges clip scene se (ctr + 1) ks).map (fun e => e.id) =
      List.range' (ctr + 1) (ks.length + 1)
    rw [ih (ctr + 1)]
    rfl

/-- Folding the insert_triples step over a batch with an empty appearance map
    always succeeds and appends exactly the edges of the first-occurrence keys,
    with consecutive ids. -/
theorem insert_fold_empty_app (getEmb : String → Option E)
    (cosSim : E → E → Option Rat) (clip : Nat) (scene : String) (semb : E)
    (hscene : getEmb scene = some semb) :
    ∀ (ts : List Triple) (g : HeteroGraph E) (seen : List TripleKey) (ctr : Nat),
    ∃ g', ts.foldlM (insertTriplesStep getEmb cosSim clip scene)
        ((g, [], seen, ctr) : TState E) =
      .ok (g', [], (batch_keys_from seen ts).reverse ++ seen,
        ctr + (batch_keys_from seen ts).length) ∧
      g'.edges = g.edges ++ keyEdges clip scene (getEmb scene) ctr
        (batch_keys_from seen ts) := by
  intro ts
  induction ts with
  | nil =>
    intro g seen ctr
    exact ⟨g, rfl, by simp [batch_keys_from, keyEdges]⟩
  | cons t ts ih =>
    intro g seen ctr
    rw [List.foldlM_cons]
    rcases insertStep_empty_app getEmb cosSim clip scene semb hscene g seen ctr t
      with ⟨hk, hstep⟩ | ⟨k, hk, hks, g2, hstep, hedges⟩ |
           ⟨k, hk, hks, g3, hstep, hedges⟩
    · rw [hstep]
      obtain ⟨g', h1, h2⟩ := ih g seen ctr
      refine ⟨g', ?_, ?_⟩
      · simp only [batch_keys_from, hk]
        exact h1
      · simp only [batch_keys_from, hk]
        exact h2
    · rw [hstep]
      obtain ⟨g', h1, h2⟩ := ih g2 seen ctr
      refine ⟨g', ?_, ?_⟩
      · simp only [batch_keys_from, hk, if_pos hks]
        exact h1
      · simp only [batch_keys_from, hk, if_pos hks]
        rw [h2, hedges]
    · rw [hstep]
      obtain ⟨g', h1, h2⟩ := ih g3 (k :: seen) (ctr + 1)
      refine ⟨g', ?_, ?_⟩
      · simp only [batch_keys_from, hk, if_neg hks]
        show List.foldlM (insertTriplesStep getEmb cosSim clip scene)
          ((g3, [], k :: seen, ctr + 1) : TState E) ts = _
        rw [h1]
        have e1 : (k :: batch_keys_from (k :: seen) ts).reverse ++ seen =
            (batch_keys_from (k :: seen) ts).reverse ++ k :: seen := by simp
        have e2 : ctr + (k :: batch_keys_from (k :: seen) ts).length =
            ctr + 1 + (batch_keys_from (k :: seen) ts).length := by
          simp only [List.length_cons]
          omega
        rw [e1, e2]
      · simp only [batch_keys_from, hk, if_neg hks]
        rw [h2, hedges]
        simp [keyEdges, List.append_assoc]

/-- Removing literal duplicate triples does not change the produced keys, as
    long as every already-removed triple has its key in the seen set. -/
theorem batch_keys_dedupFirstAux :
    ∀ (ts : List Triple) (seenT : List Triple) (seen : List TripleKey),
    (∀ t ∈ seenT, ∀ k, triple_resolved_key t = some k → k ∈ seen) →
    batch_keys_from seen (dedupFirstAux seenT ts) = batch_keys_from seen ts := by
  intro ts
  induction ts with
  | nil => intro seenT seen hinv; rfl
  | cons t ts ih =>
    intro seenT seen hinv
    by_cases hmem : t ∈ seenT
    · rw [show dedupFirstAux seenT (t :: ts) = dedupFirstAux seenT ts from by
        simp [dedupFirstAux, hmem]]
      cases hk : triple_resolved_key t with
      | none =>
        simp only [batch_keys_from, hk]
        exact ih seenT seen hinv
      | some k =>
        have hks : k ∈ seen := hinv t hmem k hk
        simp only [batch_keys_from, hk, if_pos hks]
        exact ih seenT seen hinv
    · rw [show dedupFirstAux seenT (t :: ts) = t :: dedupFirstAux (t :: seenT) ts
        from by simp [dedupFirstAux, hmem]]
      cases hk : triple_resolved_key t with
      | none =>
        simp only [batch_keys_from, hk]
        apply ih
        intro t' ht' k' hk'
        rcases List.mem_cons.mp ht' with rfl | h2
        · rw [hk] at hk'; exact absurd hk' (by simp)
        · exact hinv t' h2 k' hk'
      | some k =>
        by_cases hks : k ∈ seen
        · simp only [batch_keys_from, hk, if_pos hks]
          apply ih
          intro t' ht' k' hk'
          rcases List.mem_cons.mp ht' with rfl | h2
          · rw [hk] at hk'
            cases hk'
            exact hks
          · exact hinv t' h2 k' hk'
        · simp only [batch_keys_from, hk, if_neg hks]
          congr 1
          apply ih
          intro t' ht' k' hk'
          rcases List.mem_cons.mp ht' with rfl | h2
          · rw [hk] at hk'
            cases hk'
            exact List.mem_cons_self _ _
          · exact List.mem_cons_of_mem _ (hinv t' h2 k' hk')

/-- C4 (amended): with no appearance map (character_appearance None/empty) and
    a working scene embedding, insert_triples skips triples with a null source
    or null/empty content, produces an edge exactly for the first occurrence of
    each resolved (source, target, content) key, appends those edges in input
    order with consecutive increasing ids, and a batch with literal duplicate
    triples produces the same edges as the deduplicated batch. -/
theorem claim_C4_insert_triples_batch (getEmb : String → Option E)
    (cosSim : E → E → Option Rat) (g : HeteroGraph E) (ts : List Triple)
    (clip : Nat) (scene : String) (ctr : Nat) (semb : E)
    (hscene : getEmb scene = some semb) :
    (∀ t : Triple, t.source = none → triple_resolved_key t = none) ∧
    (∀ t : Triple, t.content = none → triple_resolved_key t = none) ∧
    (∀ (t : Triple) (c : String), t.content = some c → strTrim c = "" →
      triple_resolved_key t = none) ∧
    (∃ g', insert_triples getEmb cosSim g ts clip scene [] ctr =
        .ok (g', ctr + (spec_batch_keys ts).length) ∧
      g'.edges = g.edges ++
        keyEdges clip scene (getEmb scene) ctr (spec_batch_keys ts) ∧
      (keyEdges clip scene (getEmb scene) ctr (spec_batch_keys ts)).map
        (fun e => e.id) = List.range' (ctr + 1) (spec_batch_keys ts).length ∧
      ∃ g2, insert_triples getEmb cosSim g (dedupFirst ts) clip scene [] ctr =
          .ok (g2, ctr + (spec_batch_keys ts).length) ∧
        g2.edges = g'.edges) := by
  have main : ∀ ts' : List Triple,
      ∃ g', insert_triples getEmb cosSim g ts' clip scene [] ctr =
          .ok (g', ctr + (spec_batch_keys ts').length) ∧
        g'.edges = g.edges ++
          keyEdges clip scene (getEmb scene) ctr (spec_batch_keys ts') := by
    intro ts'
    unfold insert_triples
    by_cases he : ts'.isEmpty = true
    · rw [if_pos he]
      have : ts' = [] := List.isEmpty_iff.mp he
      subst this
      exact ⟨g, rfl, by simp [spec_batch_keys, batch_keys_from, keyEdges]⟩
    · rw [if_neg he]
      obtain ⟨g', h1, h2⟩ :=
        insert_fold_empty_app getEmb cosSim clip scene semb hscene ts' g [] ctr
      rw [h1]
      exact ⟨g', rfl, h2⟩
  obtain ⟨g', h1, h2⟩ := main ts
  obtain ⟨g2, h3, h4⟩ := main (dedupFirst ts)
  have hbk : spec_batch_keys (dedupFirst ts) = spec_batch_keys ts := by
    unfold spec_batch_keys dedupFirst
    exact batch_keys_dedupFirstAux ts [] []
      (fun t ht => absurd ht (by simp))
  refine ⟨?_, ?_, ?_, g', h1, h2, keyEdges_ids clip scene (getEmb scene)
    (spec_batch_keys ts) ctr, g2, ?_, ?_⟩
  · intro t ht
    unfold triple_resolved_key
    rw [ht]
  · intro t ht
    cases hs : t.source <;> simp [triple_resolved_key, hs, ht]
  · intro t c ht hc
    cases hs : t.source <;> simp [triple_resolved_key, hs, ht, hc]
  · rw [h3, hbk]
  · rw [h4, h2, hbk]

theorem claim_C4_witness :
    ∃ g', insert_triples cxGetEmb cxCos gA tsW 1 "kitchen" [] 0 =
        .ok (g', 0 + (spec_batch_keys tsW).length) ∧
      g'.edges = gA.edges ++
        keyEdges 1 "kitchen" (cxGetEmb "kitchen") 0 (spec_batch_keys tsW) ∧
      (keyEdges 1 "kitchen" (cxGetEmb "kitchen") 0 (spec_batch_keys tsW)).map
        (fun e => e.id) = List.range' (0 + 1) (spec_batch_keys tsW).length ∧
      ∃ g2, insert_triples cxGetEmb cxCos gA (dedupFirst tsW) 1 "kitchen" [] 0 =
          .ok (g2, 0 + (spec_batch_keys tsW).length) ∧
        g2.edges = g'.edges :=
  (claim_C4_insert_triples_batch cxGetEmb cxCos gA tsW 1 "kitchen" 0 () rfl).2.2.2

/-- C4 counterexample to the claim as stated: with a non-empty appearance map,
    a valid triple that is the first (and only) occurrence of its resolved key
    can produce no edge at all, because resolving the target merges away the
    triple's own source character and add_edge then fails. -/
theorem claim_C4_counterexample :
    triple_resolved_key tCx = some ("<character_1>", some "<A>", "likes") ∧
    (insert_triples cxGetEmb cxCos gCx [tCx] 5 "street" appCx 0).toOption.map
      (fun p => p.1.edges.length) = some 0 := by
  exact ⟨by decide, by decide⟩

/-! ## Claims C5 and C6: the search scoring formula -/

theorem node_sim_not_truthy (cosSim : E → E → Option Rat) (q n : Option String)
    (e1 e2 : Option E) (h : ¬ qTruthy q) :
    calculate_node_similarity cosSim q n e1 e2 = 0 := by
  have hcases : q = none ∨ q = some "?" ∨ q = some "" := by
    unfold qTruthy at h
    push_neg at h
    by_cases hn : q = none
    · exact Or.inl hn
    · by_cases he : q = some ""
      · exact Or.inr (Or.inr he)
      · exact Or.inr (Or.inl (h hn he))
  rcases hcases with hc | hc | hc
  · unfold calculate_node_similarity
    rw [if_pos (Or.inl hc)]
  · unfold calculate_node_similarity
    rw [if_pos (Or.inr (Or.inl hc))]
  · rw [hc]
    unfold calculate_node_similarity
    by_cases hfirst : (some "" : Option String) = none ∨
        (some "" : Option String) = some "?" ∨ n = none ∨ n = some "?"
    · rw [if_pos hfirst]
    · rw [if_neg hfirst]
      dsimp only
      have hcond : strTrim ((some "" : Option String).getD "") = "" ∨
          strTrim (n.getD "") = "" := Or.inl rfl
      rw [if_pos hcond]

theorem node_sim_none_right (cosSim : E → E → Option Rat) (q : Option String)
    (e1 e2 : Option E) :
    calculate_node_similarity cosSim q none e1 e2 = 0 := by
  unfold calculate_node_similarity
  rw [if_pos (Or.inr (Or.inr (Or.inl rfl)))]

/-- C5 (amended), part 1: the code's guarded edge-vs-triple similarity equals
    the specified formula content_sim + max(N_src + N_tgt, R_src + R_tgt). -/
theorem compute_edge_similarity_eq_spec (cosSim : E → E → Option Rat)
    (g : HeteroGraph E) (e : Edge E) (qt : QueryTriple)
    (qe : Option E × Option E × Option E) :
    compute_edge_similarity cosSim g (some e) qt qe =
      spec_triple_score cosSim g e qt qe := by
  obtain ⟨se, ce, te⟩ := qe
  unfold compute_edge_similarity spec_triple_score
  dsimp only
  have h1 : (if qTruthy qt.source then
      calculate_node_similarity cosSim qt.source (some e.source) se
        (get_node_embedding g (some e.source)) * qt.source_weight.getD 1 else 0) =
      calculate_node_similarity cosSim qt.source (some e.source) se
        (get_node_embedding g (some e.source)) * qt.source_weight.getD 1 := by
    by_cases h : qTruthy qt.source
    · rw [if_pos h]
    · rw [if_neg h, node_sim_not_truthy cosSim _ _ _ _ h, zero_mul]
  have h2 : (if qTruthy qt.target ∧ e.target ≠ none then
      calculate_node_similarity cosSim qt.target e.target te
        (get_node_embedding g e.target) * qt.target_weight.getD 1 else 0) =
      calculate_node_similarity cosSim qt.target e.target te
        (get_node_embedding g e.target) * qt.target_weight.getD 1 := by
    by_cases h : qTruthy qt.target ∧ e.target ≠ none
    · rw [if_pos h]
    · rw [if_neg h]
      push_neg at h
      by_cases ht : qTruthy qt.target
      · rw [h ht, node_sim_none_right, zero_mul]
      · rw [node_sim_not_truthy cosSim _ _ _ _ ht, zero_mul]
  have h3 : (if qTruthy qt.source ∧ e.target ≠ none then
      calculate_node_similarity cosSim qt.source e.target se
        (get_node_embedding g e.target) * qt.source_weight.getD 1 else 0) =
      calculate_node_similarity cosSim qt.source e.target se
        (get_node_embedding g e.target) * qt.source_weight.getD 1 := by
    by_cases h : qTruthy qt.source ∧ e.target ≠ none
    · rw [if_pos h]
    · rw [if_neg h]
      push_neg at h
      by_cases ht : qTruthy qt.source
      · rw [h ht, node_sim_none_right, zero_mul]
      · rw [node_sim_not_truthy cosSim _ _ _ _ ht, zero_mul]
  have h4 : (if qTruthy qt.target then
      calculate_node_similarity cosSim qt.target (some e.source) te
        (get_node_embedding g (some e.source)) * qt.target_weight.getD 1 else 0) =
      calculate_node_similarity cosSim qt.target (some e.source) te
        (get_node_embedding g (some e.source)) * qt.target_weight.getD 1 := by
    by_cases h : qTruthy qt.target
    · rw [if_pos h]
    · rw [if_neg h, node_sim_not_truthy cosSim _ _ _ _ h, zero_mul]
  rw [h1, h2, h3, h4]

/-- Characterization of a foldl of max over mapped values. -/
theorem foldl_max_spec {α : Type} (f : α → Rat) :
    ∀ (l : List α) (a : Rat),
    (a ≤ l.foldl (fun s x => max s (f x)) a) ∧
    (∀ x ∈ l, f x ≤ l.foldl (fun s x => max s (f x)) a) ∧
    (l.foldl (fun s x => max s (f x)) a = a ∨
      ∃ x ∈ l, l.foldl (fun s x => max s (f x)) a = f x) := by
  intro l
  induction l with
  | nil => intro a; exact ⟨le_refl a, by simp, Or.inl rfl⟩
  | cons x l ih =>
    intro a
    obtain ⟨h1, h2, h3⟩ := ih (max a (f x))
    rw [List.foldl_cons]
    refine ⟨le_trans (le_max_left _ _) h1, ?_, ?_⟩
    · intro y hy
      rcases List.mem_cons.mp hy with rfl | hy2
      · exact le_trans (le_max_right _ _) h1
      · exact h2 y hy2
    · rcases h3 with h | ⟨y, hy, hfy⟩
      · rcases max_choice a (f x) with hm | hm
        · left
          rw [h, hm]
        · right
          exact ⟨x, List.mem_cons_self _ _, by rw [h, hm]⟩
      · right
        exact ⟨y, List.mem_cons_of_mem _ hy, hfy⟩

/-- C5 (amended): the per-triple similarity follows the specified formula, and
    the query score of an edge over several query triples is the maximum of
    the per-triple scores clamped below at 0 (the loop starts from 0, so it is
    the maximum of the scores whenever any of them is nonnegative, and 0
    otherwise), never their sum. -/
theorem claim_C5_scoring (cosSim : E → E → Option Rat) (g : HeteroGraph E) :
    (∀ (e : Edge E) (qt : QueryTriple) (qe : Option E × Option E × Option E),
      compute_edge_similarity cosSim g (some e) qt qe =
        spec_triple_score cosSim g e qt qe) ∧
    (∀ (e : Edge E)
      (qts : List (QueryTriple × (Option E × Option E × Option E))),
      0 ≤ high_level_query_score cosSim g e qts ∧
      (∀ q ∈ qts, compute_edge_similarity cosSim g (some e) q.1 q.2 ≤
        high_level_query_score cosSim g e qts) ∧
      (high_level_query_score cosSim g e qts = 0 ∨
        ∃ q ∈ qts, high_level_query_score cosSim g e qts =
          compute_edge_similarity cosSim g (some e) q.1 q.2)) := by
  constructor
  · exact fun e qt qe => compute_edge_similarity_eq_spec cosSim g e qt qe
  · intro e qts
    exact foldl_max_spec
      (fun q : QueryTriple × (Option E × Option E × Option E) =>
        compute_edge_similarity cosSim g (some e) q.1 q.2) qts 0

/-- C5 counterexample to the claim as stated: with a single query triple whose
    per-triple score is negative (cosine -1), the query score computed by
    search_high_level_edges is 0, not the maximum (-1) of the per-triple
    scores. -/
theorem claim_C5_counterexample :
    compute_edge_similarity negCos (initGraph Unit) (some eCx5) qtCx5
      (none, some (), none) = -1 ∧
    high_level_query_score negCos (initGraph Unit) eCx5
      [(qtCx5, (none, some (), none))] = 0 ∧
    ¬ ((0 : Rat) = -1) := by
  have h1 : compute_edge_similarity negCos (initGraph Unit) (some eCx5) qtCx5
      (none, some (), none) = -1 := by
    simp [compute_edge_similarity, content_similarity, calculate_node_similarity,
      qtCx5, eCx5, negCos, qTruthy]
  refine ⟨h1, ?_, by norm_num⟩
  unfold high_level_query_score
  rw [List.foldl_cons]
  dsimp only
  rw [h1]
  rw [List.foldl_nil]
  exact max_eq_left (by norm_num)

/-- C6 (amended): when the edge content embedding is unavailable (null), the
    content component of the similarity is 0 even on an exact string match;
    the exact-match fallback (worth the content weight) applies only when both
    embeddings are present and the cosine computation raises; and the total
    similarity is always defined (missing embeddings never raise). -/
theorem claim_C6_content_fallback (cosSim : E → E → Option Rat) :
    (∀ (e : Edge E) (qc : Option String) (ce : Option E) (wc : Rat),
      e.embedding = none → content_similarity cosSim e qc ce wc = 0) ∧
    (∀ (e : Edge E) (qc : String) (cev ee : E) (wc : Rat),
      e.embedding = some ee → cosSim cev ee = none → qTruthy (some qc) →
      e.content ≠ "" →
      content_similarity cosSim e (some qc) (some cev) wc =
        if e.content = qc then wc else 0) := by
  constructor
  · intro e qc ce wc hemb
    unfold content_similarity
    split
    · rw [hemb]
    · rfl
  · intro e qc cev ee wc hemb hcos htr hct
    unfold content_similarity
    rw [if_pos ⟨htr, hct, rfl⟩, hemb]
    dsimp only
    rw [hcos]
    rfl

/-- C6 counterexample to the claim as stated: a null edge content embedding
    with exactly matching content and weight 1 yields content component 0,
    not the weight. -/
theorem claim_C6_counterexample :
    eCx6.embedding = none ∧ eCx6.content = "kind" ∧
    content_similarity cxCos eCx6 (some "kind") (some ()) 1 = 0 ∧
    ¬ (content_similarity cxCos eCx6 (some "kind") (some ()) 1 = 1) := by
  refine ⟨rfl, rfl, by decide, by decide⟩

/-- C6 witness: the amended theorem at a concrete edge whose cosine raises,
    showing the fallback equal to the weight on an exact match. -/
theorem claim_C6_witness :
    content_similarity (fun _ _ => (none : Option Rat)) eCx5 (some "a")
      (some ()) 1 = if eCx5.content = "a" then 1 else 0 := by
  exact (claim_C6_content_fallback (fun _ _ => (none : Option Rat))).2
    eCx5 "a" () () 1 rfl rfl (by decide) (by decide)

/-! ## Claim C7: continuation updates of the active conversation -/

theorem addmsg_foldl (getEmb : String → Option E) (clip : Nat) :
    ∀ (msgs stored : List (String × String)) (done : List (Msg E))
      (sp : List String),
      (msgs.foldl
        (fun (acc : List (String × String) × List (Msg E) × List String) m =>
          if m ∈ acc.1 then acc
          else
            (m :: acc.1,
             acc.2.1 ++ [{ speaker := m.1, content := m.2, clip := some clip
                           embedding := getEmb m.2 }],
             if m.1 ∈ acc.2.2 then acc.2.2 else acc.2.2 ++ [m.1]))
        (stored, done, sp)).2.1 =
      done ++ (newPairsAux stored msgs).map
        (fun p => { speaker := p.1, content := p.2, clip := some clip
                    embedding := getEmb p.2 })
  | [], stored, done, sp => by simp [newPairsAux]
  | m :: rest, stored, done, sp => by
    by_cases hm : m ∈ stored
    · rw [List.foldl_cons,
        if_pos (show m ∈ (stored, done, sp).1 from hm),
        addmsg_foldl getEmb clip rest stored done sp]
      simp only [newPairsAux]
      rw [if_pos hm]
    · rw [List.foldl_cons,
        if_neg (show m ∉ (stored, done, sp).1 from hm)]
      dsimp only
      rw [addmsg_foldl getEmb clip rest (m :: stored)
        (done ++ [({ speaker := m.1, content := m.2, clip := some clip
                     embedding := getEmb m.2 } : Msg E)])
        (if m.1 ∈ sp then sp else sp ++ [m.1])]
      simp only [newPairsAux]
      rw [if_neg hm]
      rw [List.map_cons, List.append_assoc]
      rfl

theorem conv_add_messages_eq (getEmb : String → Option E) (c : Conversation E)
    (msgs : List (String × String)) (clip : Nat) (hne : msgs ≠ []) :
    (conv_add_messages getEmb c msgs clip).messages =
      c.messages ++ (spec_new_pairs c msgs).map
        (fun p => { speaker := p.1, content := p.2, clip := some clip
                    embedding := getEmb p.2 }) ∧
    (conv_add_messages getEmb c msgs clip).clips = c.clips ∧
    (conv_add_messages getEmb c msgs clip).summary = c.summary ∧
    (conv_add_messages getEmb c msgs clip).id = c.id := by
  have hemp : msgs.isEmpty = false := by
    cases msgs
    · exact absurd rfl hne
    · rfl
  unfold conv_add_messages
  rw [if_neg (by rw [hemp]; exact Bool.false_ne_true)]
  dsimp only
  rw [addmsg_foldl getEmb clip msgs
    (c.messages.map (fun m => (m.speaker, m.content))) [] c.speakers]
  exact ⟨by rw [List.nil_append]; rfl, rfl, rfl, rfl⟩

theorem conv_add_clip_messages (c : Conversation E) (clip : Nat) :
    (conv_add_clip c clip).messages = c.messages := by
  unfold conv_add_clip
  split <;> rfl

theorem conv_add_clip_summary (c : Conversation E) (clip : Nat) :
    (conv_add_clip c clip).summary = c.summary := by
  unfold conv_add_clip
  split <;> rfl

theorem conv_add_clip_id (c : Conversation E) (clip : Nat) :
    (conv_add_clip c clip).id = c.id := by
  unfold conv_add_clip
  split <;> rfl

theorem conv_add_clip_clips (c : Conversation E) (clip : Nat) :
    (conv_add_clip c clip).clips =
      (if clip ∈ c.clips then c.clips else c.clips ++ [clip]) := by
  unfold conv_add_clip
  by_cases h : clip ∈ c.clips
  · rw [if_pos h, if_pos h]
  · rw [if_neg h, if_neg h]

/-- C7 (amended): with an active conversation present, a continuation call
    appends exactly the first occurrences of the incoming (speaker, content)
    pairs that are not already stored, as 4-tuples carrying the clip id and
    the embedding of the CONTENT ONLY (not of the displayed
    speaker-colon-content form, which is used only when a new conversation is
    created); duplicates are dropped, the clip id is added to the clip list,
    and the conversation id counter is unchanged. -/
theorem claim_C7_continuation (getEmb : String → Option E) (g : HeteroGraph E)
    (clip : Nat) (msgs : List (String × String)) (ctr cid : Nat)
    (conv : Conversation E) (hne : msgs ≠ [])
    (hcur : g.current_conversation_id = some cid)
    (hconv : aget g.conversations cid = some conv) :
    ∃ conv2 : Conversation E,
      update_conversation getEmb g clip msgs true ctr =
        (some cid, { g with conversations := aset g.conversations cid conv2 },
          ctr) ∧
      conv2.messages = conv.messages ++
        (spec_new_pairs conv msgs).map
          (fun p => { speaker := p.1, content := p.2, clip := some clip
                      embedding := getEmb p.2 }) ∧
      conv2.clips =
        (if clip ∈ conv.clips then conv.clips else conv.clips ++ [clip]) ∧
      clip ∈ conv2.clips ∧
      conv2.summary = conv.summary ∧ conv2.id = conv.id := by
  have hemp : msgs.isEmpty = false := by
    cases msgs
    · exact absurd rfl hne
    · rfl
  obtain ⟨hmsg, hclips, hsum, hid⟩ :=
    conv_add_messages_eq getEmb conv msgs clip hne
  refine ⟨conv_add_clip (conv_add_messages getEmb conv msgs clip) clip,
    ?_, ?_, ?_, ?_, ?_, ?_⟩
  · unfold update_conversation
    rw [if_neg (by rw [hemp]; exact Bool.false_ne_true)]
    rw [hcur]
    dsimp only
    rw [hconv]
  · rw [conv_add_clip_messages, hmsg]
  · rw [conv_add_clip_clips, hclips]
  · rw [conv_add_clip_clips, hclips]
    by_cases h : clip ∈ conv.clips
    · rw [if_pos h]; exact h
    · rw [if_neg h]; exact List.mem_append_right _ (List.mem_singleton.mpr rfl)
  · rw [conv_add_clip_summary, hsum]
  · rw [conv_add_clip_id, hid]

/-- C7 counterexample to the claim as stated: on a continuation update the
    stored embedding is that of the content alone, not of the displayed
    speaker-prefixed form. -/
theorem claim_C7_counterexample :
    (aget (update_conversation (fun s => some s) g7 5 [("<Alice>", "hi")]
        true 3).2.1.conversations 1).map
      (fun c => c.messages.map (fun m => m.embedding)) = some [some "hi"] ∧
    displayedMessage "<Alice>" "hi" = "Alice: hi" ∧
    ¬ ((some "hi" : Option String) = some "Alice: hi") := by
  refine ⟨rfl, rfl, by decide⟩

/-- C7 witness: the amended theorem at a concrete continuation call. -/
theorem claim_C7_witness :
    ∃ conv2 : Conversation String,
      update_conversation (fun s => some s) g7 5 [("<Alice>", "hi")] true 3 =
        (some 1, { g7 with conversations := aset g7.conversations 1 conv2 },
          3) ∧
      conv2.messages = conv7.messages ++
        (spec_new_pairs conv7 [("<Alice>", "hi")]).map
          (fun p => { speaker := p.1, content := p.2, clip := some 5
                      embedding := some p.2 }) ∧
      conv2.clips =
        (if 5 ∈ conv7.clips then conv7.clips else conv7.clips ++ [5]) ∧
      5 ∈ conv2.clips ∧
      conv2.summary = conv7.summary ∧ conv2.id = conv7.id :=
  claim_C7_continuation (fun s => some s) g7 5 [("<Alice>", "hi")] 3 1 conv7
    (List.cons_ne_nil _ _) rfl rfl

/-! ## Claim C9: context-window coverage of get_conversation_messages_with_context -/

theorem covered_foldl : ∀ (rs : List (Nat × Nat)) (acc : Finset Nat),
    rs.foldl (fun a r => a ∪ Finset.Ico r.1 r.2) acc =
      acc ∪ covered_finset rs
  | [], acc => by simp [covered_finset]
  | r :: rest, acc => by
    unfold covered_finset
    rw [List.foldl_cons, List.foldl_cons,
      covered_foldl rest (acc ∪ Finset.Ico r.1 r.2)]
    rw [covered_foldl rest (∅ ∪ Finset.Ico r.1 r.2)]
    simp [Finset.union_assoc]

theorem covered_nil : covered_finset ([] : List (Nat × Nat)) = ∅ := rfl

theorem covered_cons (r : Nat × Nat) (rs : List (Nat × Nat)) :
    covered_finset (r :: rs) = Finset.Ico r.1 r.2 ∪ covered_finset rs := by
  unfold covered_finset
  rw [List.foldl_cons, covered_foldl]
  simp only [Finset.empty_union]
  rfl

theorem covered_append (l1 l2 : List (Nat × Nat)) :
    covered_finset (l1 ++ l2) = covered_finset l1 ∪ covered_finset l2 := by
  induction l1 with
  | nil => simp [covered_nil]
  | cons r rest ih =>
    rw [List.cons_append, covered_cons, covered_cons, ih, Finset.union_assoc]

theorem mem_covered (rs : List (Nat × Nat)) (i : Nat) :
    i ∈ covered_finset rs ↔ ∃ r ∈ rs, r.1 ≤ i ∧ i < r.2 := by
  induction rs with
  | nil => simp [covered_nil]
  | cons r rest ih =>
    rw [covered_cons, Finset.mem_union, Finset.mem_Ico, ih]
    constructor
    · rintro (h | ⟨x, hx, h⟩)
      · exact ⟨r, List.mem_cons_self r rest, h⟩
      · exact ⟨x, List.mem_cons_of_mem r hx, h⟩
    · rintro ⟨x, hx, h⟩
      rcases List.mem_cons.mp hx with hx | hx
      · exact Or.inl (hx ▸ h)
      · exact Or.inr ⟨x, hx, h⟩

theorem Ico_merge (ms me s e : Nat) (hms : ms ≤ s) (hse : s ≤ me) :
    Finset.Ico ms (max me e) = Finset.Ico ms me ∪ Finset.Ico s e := by
  ext i
  simp only [Finset.mem_Ico, Finset.mem_union, lt_max_iff]
  omega

theorem merge_aux_covered :
    ∀ (rest : List (Nat × Nat)) (cur : Nat × Nat) (acc : List (Nat × Nat)),
      rest.Pairwise (fun a b => a.1 ≤ b.1) →
      (∀ r ∈ rest, cur.1 ≤ r.1) →
      covered_finset (merge_ranges_aux rest cur acc) =
        covered_finset acc ∪ Finset.Ico cur.1 cur.2 ∪ covered_finset rest
  | [], cur, acc, _, _ => by
    unfold merge_ranges_aux
    rw [covered_append, covered_cons, covered_nil]
    simp
  | (s, e) :: rest, (ms, me), acc, hpw, hcur => by
    unfold merge_ranges_aux
    have hms : ms ≤ s := hcur (s, e) (List.mem_cons_self _ _)
    have hpw2 := (List.pairwise_cons.mp hpw).2
    by_cases hle : s ≤ me
    · rw [if_pos hle]
      rw [merge_aux_covered rest (ms, max me e) acc hpw2
        (fun r hr => hcur r (List.mem_cons_of_mem _ hr))]
      rw [covered_cons]
      show covered_finset acc ∪ Finset.Ico ms (max me e) ∪ covered_finset rest
        = _
      rw [Ico_merge ms me s e hms hle]
      simp [Finset.union_assoc]
    · rw [if_neg hle]
      rw [merge_aux_covered rest (s, e) (acc ++ [(ms, me)]) hpw2
        (fun r hr => (List.pairwise_cons.mp hpw).1 r hr)]
      rw [covered_append, covered_cons, covered_cons, covered_nil]
      simp [Finset.union_assoc]

theorem merge_covered (rs : List (Nat × Nat))
    (hpw : rs.Pairwise (fun a b => a.1 ≤ b.1)) :
    covered_finset (merge_ranges rs) = covered_finset rs := by
  cases rs with
  | nil => rfl
  | cons r rest =>
    unfold merge_ranges
    rw [merge_aux_covered rest r [] (List.pairwise_cons.mp hpw).2
      (fun b hb => (List.pairwise_cons.mp hpw).1 b hb)]
    rw [covered_cons, covered_nil]
    simp

theorem sort_ranges_pairwise (rs : List (Nat × Nat)) :
    (sort_ranges rs).Pairwise (fun a b => a.1 ≤ b.1) := by
  haveI h1 : IsTotal (Nat × Nat) (fun a b => a.1 ≤ b.1) :=
    ⟨fun a b => Nat.le_total a.1 b.1⟩
  haveI h2 : IsTrans (Nat × Nat) (fun a b => a.1 ≤ b.1) :=
    ⟨fun a b c hab hbc => Nat.le_trans hab hbc⟩
  exact List.sorted_insertionSort _ rs

theorem sort_ranges_perm (rs : List (Nat × Nat)) :
    (sort_ranges rs).Perm rs := List.perm_insertionSort _ rs

theorem mem_covered_sortmerge (rs : List (Nat × Nat)) (i : Nat) :
    i ∈ covered_finset (merge_ranges (sort_ranges rs)) ↔
      ∃ r ∈ rs, r.1 ≤ i ∧ i < r.2 := by
  rw [merge_covered _ (sort_ranges_pairwise rs), mem_covered]
  constructor
  · rintro ⟨r, hr, h⟩
    exact ⟨r, (sort_ranges_perm rs).subset hr, h⟩
  · rintro ⟨r, hr, h⟩
    exact ⟨r, (sort_ranges_perm rs).symm.subset hr, h⟩

theorem mem_context_indices (len w : Nat) (idxs : List Nat) (i : Nat) :
    i ∈ context_indices len w idxs ↔
      ∃ j ∈ idxs, j - w ≤ i ∧ i < min len (j + w + 1) := by
  unfold context_indices
  rw [Finset.mem_sort, mem_covered_sortmerge]
  unfold hit_ranges
  constructor
  · rintro ⟨r, hr, h1, h2⟩
    rcases List.mem_map.mp hr with ⟨j, hj, rfl⟩
    exact ⟨j, hj, h1, h2⟩
  · rintro ⟨j, hj, h1, h2⟩
    exact ⟨(j - w, min len (j + w + 1)), List.mem_map.mpr ⟨j, hj, rfl⟩, h1, h2⟩

theorem context_indices_example :
    context_indices 10 2 [2, 4] = [0, 1, 2, 3, 4, 5, 6] := by
  have h1 : ∀ i, i ∈ context_indices 10 2 [2, 4] ↔
      i ∈ [0, 1, 2, 3, 4, 5, 6] := by
    intro i
    rw [mem_context_indices]
    simp only [List.mem_cons, List.not_mem_nil, or_false]
    constructor
    · rintro ⟨j, hj, h⟩
      rcases hj with rfl | rfl <;> omega
    · intro h
      by_cases h4 : i < 5
      · refine ⟨2, Or.inl rfl, by omega⟩
      · refine ⟨4, Or.inr rfl, by omega⟩
  have hnd1 : (context_indices 10 2 [2, 4]).Nodup := Finset.sort_nodup _ _
  have hnd2 : ([0, 1, 2, 3, 4, 5, 6] : List Nat).Nodup := by decide
  have hs1 : (context_indices 10 2 [2, 4]).Sorted (· ≤ ·) :=
    Finset.sort_sorted _ _
  have hs2 : ([0, 1, 2, 3, 4, 5, 6] : List Nat).Sorted (· ≤ ·) := by decide
  exact List.eq_of_perm_of_sorted
    ((List.perm_ext_iff_of_nodup hnd1 hnd2).mpr h1) hs1 hs2

/-- C9: each hit contributes the half-open window from i - w to
    min(len, i + w + 1); after sorting, merging and set union the rendered
    index list of a conversation holds exactly the covered indices, each once,
    in increasing order; and on the concrete ten-message conversation with
    hits at 2 and 4 and window 2 the output covers exactly indices 0 to 6,
    rendered once each in temporal order under the summary header line. -/
theorem claim_C9_context_windows :
    (∀ (len w : Nat) (idxs : List Nat),
       (context_indices len w idxs).Sorted (· ≤ ·) ∧
       (context_indices len w idxs).Nodup ∧
       ∀ i, i ∈ context_indices len w idxs ↔
         ∃ j ∈ idxs, j - w ≤ i ∧ i < min len (j + w + 1)) ∧
    context_indices 10 2 [2, 4] = [0, 1, 2, 3, 4, 5, 6] ∧
    get_conversation_messages_with_context g9 hits9 2 = block9 := by
  refine ⟨fun len w idxs => ⟨Finset.sort_sorted _ _, Finset.sort_nodup _ _,
    fun i => mem_context_indices len w idxs i⟩, context_indices_example, ?_⟩
  have hcb : conversation_block g9 2 1 [2, 4] = some block9 := by
    show (let sidx := context_indices 10 2 [2, 4]
          let lines := sidx.filterMap (fun i =>
            (conv9.messages.get? i).map format_context_message)
          if lines.isEmpty then none
          else some ("Conversation 1: The chat." ++ "\n" ++
            String.intercalate "\n" lines)) = some block9
    rw [context_indices_example]
    rfl
  show String.intercalate "\n\n"
      (List.filterMap (fun p => conversation_block g9 2 p.1 p.2)
        [(1, [2, 4])]) = block9
  rw [List.filterMap_cons]
  dsimp only
  rw [hcb]
  rfl

/-! ## Claim C10: rename leaves conversations untouched and strict speaker
    search cannot reach them under the new name -/

theorem foldl_append_pred {α β : Type} (step : List α → β → List α)
    (P : α → β → Prop)
    (hstep : ∀ acc b x, x ∈ step acc b → x ∈ acc ∨ P x b) :
    ∀ (l : List β) (acc : List α) (x : α),
      x ∈ l.foldl step acc → x ∈ acc ∨ ∃ b ∈ l, P x b
  | [], acc, x, hx => Or.inl hx
  | b :: rest, acc, x, hx => by
    rw [List.foldl_cons] at hx
    rcases foldl_append_pred step P hstep rest (step acc b) x hx with h | ⟨c, hc, h⟩
    · rcases hstep acc b x h with h | h
      · exact Or.inl h
      · exact Or.inr ⟨b, List.mem_cons_self _ _, h⟩
    · exact Or.inr ⟨c, List.mem_cons_of_mem _ hc, h⟩

theorem conversation_hits_conv (getEmb : String → Option E)
    (cosSim : E → E → Option Rat) (g : HeteroGraph E) (q : String) (qe : E)
    (strict : Option (List String)) :
    ∀ h ∈ conversation_hits getEmb cosSim g q qe strict,
      ∃ p ∈ g.conversations, p.1 = h.conversation_id ∧
        speakersAdmit strict p.2 = true := by
  intro h hh
  unfold conversation_hits at hh
  have hstep : ∀ (acc : List SearchHit) (p : Nat × Conversation E)
      (x : SearchHit),
      x ∈ (if speakersAdmit strict p.2 then
        acc ++ (p.2.messages.enum.filterMap (fun im =>
          if im.2.content = "" then none
          else
            let s := message_score getEmb cosSim q qe im.2
            if 0 < s then
              some { conversation_id := p.1, message_index := im.1, score := s }
            else none))
        else acc) →
      x ∈ acc ∨ (p.1 = x.conversation_id ∧ speakersAdmit strict p.2 = true) := by
    intro acc p x hx
    by_cases hadm : speakersAdmit strict p.2 = true
    · rw [if_pos hadm] at hx
      rcases List.mem_append.mp hx with hx | hx
      · exact Or.inl hx
      · right
        rcases List.mem_filterMap.mp hx with ⟨im, him, hf⟩
        by_cases hc : im.2.content = ""
        · rw [if_pos hc] at hf
          exact absurd hf (by simp)
        · rw [if_neg hc] at hf
          dsimp only at hf
          by_cases hs : 0 < message_score getEmb cosSim q qe im.2
          · rw [if_pos hs] at hf
            have hx2 := Option.some.inj hf
            rw [← hx2]
            exact ⟨rfl, hadm⟩
          · rw [if_neg hs] at hf
            exact absurd hf (by simp)
    · rw [if_neg hadm] at hx
      exact Or.inl hx
  rcases foldl_append_pred _ _ hstep g.conversations [] h hh with h2 | ⟨p, hp, h2⟩
  · exact absurd h2 (List.not_mem_nil h)
  · exact ⟨p, hp, h2⟩

theorem search_conversations_conv (getEmb : String → Option E)
    (cosSim : E → E → Option Rat) (g : HeteroGraph E) (q : String) (k : Nat)
    (strict : Option (List String)) :
    ∀ h ∈ search_conversations getEmb cosSim g q k strict,
      ∃ p ∈ g.conversations, p.1 = h.conversation_id ∧
        speakersAdmit strict p.2 = true := by
  intro h hh
  unfold search_conversations at hh
  by_cases hq : q = ""
  · rw [if_pos hq] at hh
    exact absurd hh (List.not_mem_nil h)
  · rw [if_neg hq] at hh
    cases hqe : getEmb q with
    | none =>
      rw [hqe] at hh
      exact absurd hh (List.not_mem_nil h)
    | some qe =>
      rw [hqe] at hh
      dsimp only at hh
      have h2 : h ∈ (conversation_hits getEmb cosSim g q qe
          strict).insertionSort (fun a b => b.score ≤ a.score) :=
        List.take_subset k _ hh
      have h3 : h ∈ conversation_hits getEmb cosSim g q qe strict :=
        (List.perm_insertionSort _ _).subset h2
      exact conversation_hits_conv getEmb cosSim g q qe strict h h3

theorem speakersAdmit_single (n : String) (c : Conversation E)
    (h : speakersAdmit (some [n]) c = true) :
    normalizeSpeaker n ∈ c.speakers := by
  unfold speakersAdmit at h
  simp only [List.isEmpty_cons, Bool.false_eq_true, if_false, List.map_cons,
    List.map_nil, List.all_cons, List.all_nil, Bool.and_true,
    decide_eq_true_eq] at h
  exact h

theorem rename_character_success (g : HeteroGraph E) (o n : String)
    (hok : (rename_character g o n).1 = true) :
    (rename_character g o n).2 =
      rename_apply g (normalizeName o) (angleWrap (stripAngles n)) := by
  unfold rename_character at hok ⊢
  dsimp only at hok ⊢
  split_ifs at hok ⊢ with h1 h2 h3
  rfl

/-- C10: a successful rename_character changes only the character table, the
    edge endpoints and the adjacency lists: the conversations, the object
    table and the active-conversation pointer are untouched, so the renamed
    speaker keeps the old generic name inside conversations; and every hit of
    a subsequent search_conversations with speaker_strict = [new] comes from
    a conversation whose speakers set already contains the normalized new
    name, so the conversations where the character spoke under the old name
    are never matched. -/
theorem claim_C10_rename_frame (g : HeteroGraph E) (o n : String)
    (getEmb : String → Option E) (cosSim : E → E → Option Rat)
    (query : String) (k : Nat)
    (hok : (rename_character g o n).1 = true) :
    (rename_character g o n).2.conversations = g.conversations ∧
    (rename_character g o n).2.objects = g.objects ∧
    (rename_character g o n).2.current_conversation_id =
      g.current_conversation_id ∧
    ∀ h ∈ search_conversations getEmb cosSim (rename_character g o n).2
        query k (some [n]),
      ∃ p ∈ g.conversations, p.1 = h.conversation_id ∧
        normalizeSpeaker n ∈ p.2.speakers := by
  have hgr := rename_character_success g o n hok
  refine ⟨by rw [hgr]; rfl, by rw [hgr]; rfl, by rw [hgr]; rfl, ?_⟩
  intro h hh
  obtain ⟨p, hp, hpid, hadm⟩ := search_conversations_conv getEmb cosSim
    (rename_character g o n).2 query k (some [n]) h hh
  rw [hgr, rename_apply_conversations] at hp
  exact ⟨p, hp, hpid, speakersAdmit_single n p.2 hadm⟩

/-- C10 witness: the frame theorem at a concrete graph where the generic
    character 1, who spoke in conversation 7, is renamed to Alice. -/
theorem claim_C10_witness :
    (rename_character g10 "<character_1>" "Alice").2.conversations =
      g10.conversations ∧
    (rename_character g10 "<character_1>" "Alice").2.objects = g10.objects ∧
    (rename_character g10 "<character_1>" "Alice").2.current_conversation_id =
      g10.current_conversation_id ∧
    ∀ h ∈ search_conversations (fun _ => some ()) (fun _ _ => some 1)
        (rename_character g10 "<character_1>" "Alice").2 "q" 5
        (some ["Alice"]),
      ∃ p ∈ g10.conversations, p.1 = h.conversation_id ∧
        normalizeSpeaker "Alice" ∈ p.2.speakers :=
  claim_C10_rename_frame g10 "<character_1>" "Alice" (fun _ => some ())
    (fun _ _ => some 1) "q" 5 (by decide)

end HVM
